import Mathlib

/-!
Verification of the dzip-rs archive engine against its specification.

The repository contains overlapping implementations of the DZ archive
engine.  The definitions below are shallow embeddings of the Rust
functions, byte streams being `List Nat` (each element a byte value),
strings being their byte lists, and fallible operations returning
`Option` or `Except`.
-/

namespace Dzip

/-- `0x5A525444`, the DTRZ magic (src/core/src/format.rs line 5). -/
def MAGIC : Nat := 0x5A525444

/-- `0xFFFF`, terminator of a file's chunk-id list. -/
def CHUNK_LIST_TERMINATOR : Nat := 0xFFFF

/-- The implicit root directory string "." as a byte list. -/
def rootDirStr : List Nat := [46]

/-- Read one little-endian u16 from a byte stream (byteorder `read_u16`,
binrw `u16::read_options` with little endian). -/
def readU16le : List Nat → Option (Nat × List Nat)
  | b0 :: b1 :: rest => some (b0 + 256 * b1, rest)
  | _ => none

/-- Read one little-endian u32 from a byte stream. -/
def readU32le : List Nat → Option (Nat × List Nat)
  | b0 :: b1 :: b2 :: b3 :: rest =>
      some (b0 + 256 * b1 + 65536 * b2 + 16777216 * b3, rest)
  | _ => none

/-- Read one u8 from a byte stream. -/
def readU8 : List Nat → Option (Nat × List Nat)
  | b :: rest => some (b, rest)
  | _ => none

/-- Serialize a u16 little-endian (byteorder `write_u16`); the Rust side
casts to `u16` first, which the modulus reproduces. -/
def writeU16le (v : Nat) : List Nat :=
  [v % 256, v / 256 % 256]

/-- Serialize a u32 little-endian. -/
def writeU32le (v : Nat) : List Nat :=
  [v % 256, v / 256 % 256, v / 65536 % 256, v / 16777216 % 256]

/-- binrw `NullString` read: bytes up to a 0 terminator, which must be
present (EOF before the terminator is a read error). -/
def readNullStr : List Nat → Option (List Nat × List Nat)
  | [] => none
  | b :: rest =>
      if b = 0 then some ([], rest)
      else match readNullStr rest with
        | some (s, r) => some (b :: s, r)
        | none => none

/-- Read `n` null-terminated strings (binrw `Vec<NullString>` with
`VecArgs { count := n }`). -/
def readStrings : Nat → List Nat → Option (List (List Nat) × List Nat)
  | 0, bs => some ([], bs)
  | n + 1, bs =>
      match readNullStr bs with
      | none => none
      | some (s, rest) =>
          match readStrings n rest with
          | none => none
          | some (ss, r) => some (s :: ss, r)

/-- Read u16 chunk ids until the `0xFFFF` terminator
(src/core/src/format.rs `read_chunk_ids`). -/
def readChunkIds : List Nat → Option (List Nat × List Nat)
  | b0 :: b1 :: rest =>
      let v := b0 + 256 * b1
      if v = CHUNK_LIST_TERMINATOR then some ([], rest)
      else match readChunkIds rest with
        | some (ids, r) => some (v :: ids, r)
        | none => none
  | _ => none

/-- One record of the file→chunk map (src/core/src/format.rs
`FileMapDiskEntry`). -/
structure FileMapEntry where
  dirIdx : Nat
  chunkIds : List Nat
  deriving Repr, DecidableEq

/-- Read `n` file-map records. -/
def readFileMap : Nat → List Nat → Option (List FileMapEntry × List Nat)
  | 0, bs => some ([], bs)
  | n + 1, bs =>
      match readU16le bs with
      | none => none
      | some (d, rest) =>
          match readChunkIds rest with
          | none => none
          | some (ids, r1) =>
              match readFileMap n r1 with
              | none => none
              | some (es, r2) => some (⟨d, ids⟩ :: es, r2)

/-- In-memory chunk record (src/core/src/unpack.rs `RawChunk`).
`headCLen` is the raw header `compressed_length` (`_head_c_len`),
`realCLen` the reconciled length (0 until reconciliation). -/
structure RawChunk where
  id : Nat
  offset : Nat
  headCLen : Nat
  dLen : Nat
  flags : Nat
  fileIdx : Nat
  realCLen : Nat
  deriving Repr, DecidableEq, Inhabited

/-- Read `n` on-disk chunk records (src/core/src/format.rs
`ChunkDiskEntry`): offset u32, c_len u32, d_len u32, flags u16,
file_idx u16; ids are assigned by enumeration and `real_c_len` starts
at 0 (src/core/src/unpack.rs lines 145-159). -/
def readChunks : Nat → Nat → List Nat → Option (List RawChunk × List Nat)
  | _, 0, bs => some ([], bs)
  | i, n + 1, bs =>
      match readU32le bs with
      | none => none
      | some (off, r1) =>
          match readU32le r1 with
          | none => none
          | some (clen, r2) =>
              match readU32le r2 with
              | none => none
              | some (dlen, r3) =>
                  match readU16le r3 with
                  | none => none
                  | some (fl, r4) =>
                      match readU16le r4 with
                      | none => none
                      | some (fi, r5) =>
                          match readChunks (i + 1) n r5 with
                          | none => none
                          | some (cs, r6) =>
                              some (⟨i, off, clen, dlen, fl, fi, 0⟩ :: cs, r6)

/-- The archive header (src/core/src/format.rs `ArchiveHeader`). -/
structure Header where
  numFiles : Nat
  numDirs : Nat
  version : Nat
  deriving Repr, DecidableEq

/-- Load failure; each constructor mirrors one `DzipError::Generic`
wrapping in `ArchiveMetadata::load`.  `headerErr (some v)` is the binrw
magic-assert failure carrying the magic value that was found,
`headerErr none` a truncated header. -/
inductive LoadErr where
  | headerErr (found : Option Nat)
  | filenamesErr
  | dirsErr
  | mapErr
  | chunkHeaderErr
  | chunksErr
  | splitsErr
  | rangeErr
  deriving Repr, DecidableEq

/-- Parse the archive header with the binrw magic assertion
(src/core/src/format.rs lines 13-21, src/core/src/unpack.rs lines
73-75). -/
def parseHeader (bs : List Nat) : Except LoadErr (Header × List Nat) :=
  match readU32le bs with
  | none => .error (.headerErr none)
  | some (m, r0) =>
      if m ≠ MAGIC then .error (.headerErr (some m))
      else match readU16le r0 with
        | none => .error (.headerErr none)
        | some (nf, r1) =>
            match readU16le r1 with
            | none => .error (.headerErr none)
            | some (nd, r2) =>
                match readU8 r2 with
                | none => .error (.headerErr none)
                | some (v, r3) => .ok (⟨nf, nd, v⟩, r3)

/-- In-memory archive metadata (src/core/src/unpack.rs
`ArchiveMetadata`); `rangeSettings` keeps the ten raw bytes. -/
structure Metadata where
  version : Nat
  userFiles : List (List Nat)
  directories : List (List Nat)
  mapEntries : List FileMapEntry
  rawChunks : List RawChunk
  splitFileNames : List (List Nat)
  rangeSettings : Option (List Nat)
  mainFileLen : Nat
  deriving Repr, DecidableEq

/-- Whether a chunk's flag word selects DZ_RANGE (bit 0x4); the source
goes through `ChunkFlags::from_bits_truncate`, which preserves bit 2. -/
def hasDzFlag (flags : Nat) : Bool := flags &&& 4 ≠ 0

/-- `ArchiveMetadata::load` (src/core/src/unpack.rs lines 62-214):
the eight sequential blocks.  `mainLen` is the probed length of the
main volume.  The directory list is seeded with "." and `num_dirs - 1`
directory strings are read only when `num_dirs > 1`. -/
def loadMetadata (bs : List Nat) (mainLen : Nat) : Except LoadErr Metadata :=
  match parseHeader bs with
  | .error e => .error e
  | .ok (hdr, r0) =>
      match readStrings hdr.numFiles r0 with
      | none => .error .filenamesErr
      | some (userFiles, r1) =>
          match
            (if hdr.numDirs > 1 then
              readStrings (hdr.numDirs - 1) r1
            else some ([], r1)) with
          | none => .error .dirsErr
          | some (dirs, r2) =>
              match readFileMap hdr.numFiles r2 with
              | none => .error .mapErr
              | some (mapEntries, r3) =>
                  match readU16le r3 with
                  | none => .error .chunkHeaderErr
                  | some (numArch, r4) =>
                      match readU16le r4 with
                      | none => .error .chunkHeaderErr
                      | some (numChunks, r5) =>
                          match readChunks 0 numChunks r5 with
                          | none => .error .chunksErr
                          | some (chunks, r6) =>
                              match
                                (if numArch > 1 then
                                  readStrings (numArch - 1) r6
                                else some ([], r6)) with
                              | none => .error .splitsErr
                              | some (splits, r7) =>
                                  if chunks.any (fun c => hasDzFlag c.flags) then
                                    if r7.length < 10 then .error .rangeErr
                                    else .ok ⟨hdr.version, userFiles,
                                      rootDirStr :: dirs, mapEntries, chunks,
                                      splits, some (r7.take 10), mainLen⟩
                                  else
                                    .ok ⟨hdr.version, userFiles,
                                      rootDirStr :: dirs, mapEntries, chunks,
                                      splits, none, mainLen⟩

/-! ## The older reader front-end (src/src/unpack.rs) -/

/-- Error kinds of the older implementation (src/src/error.rs
`DzipError`), restricted to the ones its header path can produce. -/
inductive OldErr where
  | ioErr
  | invalidMagic (found : Nat)
  deriving Repr, DecidableEq

/-- The header step of the older `do_unpack` (src/src/unpack.rs lines
30-37): read the leading little-endian u32, fail with
`DzipError::InvalidMagic(magic)` if it is not `MAGIC`, then read
`num_files` (u16), `num_dirs` (u16) and `version` (u8). -/
def oldReadHeader (bs : List Nat) : Except OldErr (Header × List Nat) :=
  match readU32le bs with
  | none => .error .ioErr
  | some (magic, r0) =>
      if magic ≠ MAGIC then .error (.invalidMagic magic)
      else match readU16le r0 with
        | none => .error .ioErr
        | some (nf, r1) =>
            match readU16le r1 with
            | none => .error .ioErr
            | some (nd, r2) =>
                match readU8 r2 with
                | none => .error .ioErr
                | some (v, r3) => .ok (⟨nf, nd, v⟩, r3)

/-! ## Chunk geometry reconciliation (src/core/src/unpack.rs
`UnpackPlan::calculate_chunk_sizes`, lines 226-267) -/

/-- Stable insertion of a chunk index into a list of indices ordered by
ascending chunk offset; `≤` keeps earlier indices in front of
equal-offset later ones, matching Rust's stable `sort_by_key`. -/
def insertByOffset (chunks : List RawChunk) (i : Nat) :
    List Nat → List Nat
  | [] => [i]
  | j :: rest =>
      if (chunks.getD i default).offset ≤ (chunks.getD j default).offset then
        i :: j :: rest
      else
        j :: insertByOffset chunks i rest

/-- Stable sort of chunk indices by ascending offset. -/
def sortByOffset (chunks : List RawChunk) : List Nat → List Nat
  | [] => []
  | i :: rest => insertByOffset chunks i (sortByOffset chunks rest)

/-- The indices of `chunks` belonging to volume `f`, in insertion
order, then sorted by offset — one group of the reconciler. -/
def sortedGroup (chunks : List RawChunk) (f : Nat) : List Nat :=
  sortByOffset chunks
    ((List.range chunks.length).filter
      (fun i => (chunks.getD i default).fileIdx = f))

/-- The reconciler's `next_offset` for the chunk at index `i`: the
offset of its successor in the sorted group, or the volume length cast
to u32 (`current_file_size as u32`) for the last chunk. -/
def nextOffsetOf (chunks : List RawChunk) (volLen : Nat → Nat) (i : Nat) :
    Nat :=
  let c := chunks.getD i default
  let g := sortedGroup chunks c.fileIdx
  let k := g.indexOf i
  match g.get? (k + 1) with
  | some j => (chunks.getD j default).offset
  | none => volLen c.fileIdx % 4294967296

/-- The reconciled `real_c_len` of the chunk at index `i`
(src/core/src/unpack.rs lines 250-264): the distance to the next
offset, falling back to the raw header `compressed_length` when the
next offset lies before the chunk. -/
def realCLenAt (chunks : List RawChunk) (volLen : Nat → Nat) (i : Nat) :
    Nat :=
  let c := chunks.getD i default
  let nxt := nextOffsetOf chunks volLen i
  if nxt < c.offset then c.headCLen else nxt - c.offset

/-- `UnpackPlan::calculate_chunk_sizes`: every chunk's `real_c_len` is
recomputed from its volume group.  The source updates each index
exactly once through a per-volume loop; groups are disjoint, so the
per-index recomputation below yields the same list. -/
def calcChunkSizes (chunks : List RawChunk) (volLen : Nat → Nat) :
    List RawChunk :=
  (List.range chunks.length).map (fun i =>
    let c := chunks.getD i default
    { c with realCLen := realCLenAt chunks volLen i })

/-- Modelled from the spec, for comparison with `realCLenAt` only
(spec.md §4.3 steps 4-6 and the tie-break): `available = limit - offset`
with fallback to the header value when `limit < offset`; compressed and
equal-sized chunks always take `available`; otherwise an oversized
header value is clamped to `available`; otherwise the header value is
kept. -/
def specRealCLen (flags cLen dLen offset limit : Nat) : Nat :=
  if limit < offset then cLen
  else
    let available := limit - offset
    let isCompressed := flags &&& (8 ||| 16 ||| 512 ||| 4) ≠ 0
    let equalSized := cLen = dLen
    if isCompressed ∧ equalSized then available
    else if cLen > available then available
    else cLen

/-! ## Extraction (src/core/src/unpack.rs `UnpackPlan::extract`,
lines 269-390) -/

/-- Failure of one file's extraction, parameterised by the codec error
type `ε`: `openFail f` models the split-name lookup / open failure for
volume `f`, `codec e` a decompression error surfaced when `keep_raw`
is off. -/
inductive ExtractErr (ε : Type) where
  | openFail (fileIdx : Nat)
  | codec (e : ε)
  deriving Repr, DecidableEq

/-- The `chunk_indices` lookup (src/core/src/unpack.rs lines 278-283):
a HashMap built by enumeration, so a duplicated id keeps the last
index.  Returns the chunk stored under id `cid`, if any. -/
def lookupChunk (chunks : List RawChunk) (cid : Nat) : Option RawChunk :=
  (chunks.foldl (fun acc c => if c.id = cid then some c else acc) none)

/-- Extract one file (the body of `try_for_each_init` in
`UnpackPlan::extract`): walk the file's chunk-id list in map order;
ids absent from the chunk table are skipped; for a present chunk the
volume is opened (`vol` returning `none` models the failed split
lookup), `real_c_len` bytes at `offset` are read, and the codec
dispatcher `decomp flags d_len` runs on them; on codec failure the
same raw bytes are written instead when `keepRaw`, otherwise the
file's extraction aborts with the codec's error. -/
def extractFile {ε : Type} (chunks : List RawChunk)
    (vol : Nat → Option (List Nat))
    (decomp : Nat → Nat → List Nat → Except ε (List Nat))
    (keepRaw : Bool) : List Nat → List Nat → Except (ExtractErr ε) (List Nat)
  | [], acc => .ok acc
  | cid :: rest, acc =>
      match lookupChunk chunks cid with
      | none => extractFile chunks vol decomp keepRaw rest acc
      | some c =>
          match vol c.fileIdx with
          | none => .error (.openFail c.fileIdx)
          | some content =>
              let raw := (content.drop c.offset).take c.realCLen
              match decomp c.flags c.dLen raw with
              | .ok out => extractFile chunks vol decomp keepRaw rest (acc ++ out)
              | .error e =>
                  if keepRaw then
                    extractFile chunks vol decomp keepRaw rest (acc ++ raw)
                  else .error (.codec e)

/-! ## Path sanitization (src/src/utils.rs `sanitize_path`,
lines 87-126) -/

/-- The `Security` error kinds of `sanitize_path`.  `absolutePath`
corresponds to the `Component::Prefix` branch, which arises only from
Windows drive prefixes; on a Unix host `Path::components` never yields
it, so the embedding (which follows Unix path semantics) cannot
return it. -/
inductive SecErr where
  | traversal
  | absolutePath
  | emptyResolution
  deriving Repr, DecidableEq

/-- `rel_path_str.replace('\\', "/")`. -/
def normalizeSep (s : List Char) : List Char :=
  s.map (fun ch => if ch = '\\' then '/' else ch)

/-- Split a path string at '/'; empty pieces mark adjacent, leading or
trailing separators.  Together with the filtering in
`sanitizeComponents` this reproduces Rust's `Path::components`: empty
pieces and `.` pieces are skipped (Root/CurDir components are
`continue`d in the source), `..` is `Component::ParentDir`. -/
def splitSlash : List Char → List (List Char)
  | [] => [[]]
  | ch :: rest =>
      match splitSlash rest with
      | [] => [[]]
      | p :: ps =>
          if ch = '/' then [] :: p :: ps
          else (ch :: p) :: ps

/-- The component loop of `sanitize_path`: `..` aborts with the
directory-traversal error; empty and `.` components are dropped;
normal components are kept in order. -/
def sanitizeComponents : List (List Char) → Except SecErr (List (List Char))
  | [] => .ok []
  | p :: rest =>
      if p = ['.', '.'] then .error .traversal
      else
        match sanitizeComponents rest with
        | .error e => .error e
        | .ok tail =>
            if p = [] ∨ p = ['.'] then .ok tail
            else .ok (p :: tail)

/-- `sanitize_path` without the final `base.join`: returns the
sanitized relative path as its component list, refusing an empty
resolution. -/
def sanitizePath (s : List Char) : Except SecErr (List (List Char)) :=
  match sanitizeComponents (splitSlash (normalizeSep s)) with
  | .error e => .error e
  | .ok parts => if parts = [] then .error .emptyResolution else .ok parts

/-! ## Packing (src/src/pack.rs `do_pack`) -/

/-- `encode_flags`'s per-name bit (src/src/utils.rs lines 51-76). -/
def flagBit (s : String) : Nat :=
  if s = "COMBUF" then 1
  else if s = "DZ_RANGE" then 4
  else if s = "ZLIB" then 8
  else if s = "BZIP" then 16
  else if s = "MP3" then 32
  else if s = "JPEG" then 64
  else if s = "ZERO" then 128
  else if s = "COPY" then 256
  else if s = "LZMA" then 512
  else if s = "RANDOM_ACCESS" then 1024
  else 0

/-- `encode_flags`: OR of the recognised names; the trailing COPY
fallback of the source is kept although it can never change the
result ("COPY" already maps to the copy bit). -/
def encodeFlags (fs : List String) : Nat :=
  let r := fs.foldl (fun a f => a ||| flagBit f) 0
  if r = 0 ∧ fs.any (fun f => f = "COPY") then 256 else r

/-- A `[[chunks]]` entry of the pack configuration (src/src/types.rs
`ChunkDef` as used by `do_pack`); `offset` and `sizeCompressed` are
rewritten by the writer thread. -/
structure PChunkDef where
  id : Nat
  flagNames : List String
  offset : Nat
  sizeCompressed : Nat
  sizeDecompressed : Nat
  archiveFileIndex : Nat
  deriving Repr, DecidableEq

/-- A `[[files]]` entry: `filename` and `directory` as byte strings,
plus the ordered chunk-id list. -/
structure PFile where
  filename : List Nat
  directory : List Nat
  chunks : List Nat
  deriving Repr, DecidableEq

/-- The pack configuration (split names as byte strings; the optional
range settings as their ten bytes). -/
structure PackConfig where
  files : List PFile
  chunks : List PChunkDef
  archiveFiles : List (List Nat)
  rangeSettings : Option (List Nat)
  deriving Repr, DecidableEq

/-- ASCII whitespace for `str::trim` (the byte strings considered here
contain no multi-byte whitespace). -/
def isWsByte (b : Nat) : Bool :=
  b = 32 ∨ b = 9 ∨ b = 10 ∨ b = 11 ∨ b = 12 ∨ b = 13

/-- `str::trim` on a byte string. -/
def trimBytes (s : List Nat) : List Nat :=
  (s.dropWhile isWsByte).reverse.dropWhile isWsByte |>.reverse

/-- Replace byte `a` with byte `b` (`str::replace` of one separator
character by the other). -/
def replByte (a b : Nat) (s : List Nat) : List Nat :=
  s.map (fun x => if x = a then b else x)

/-- The normalized directory key a file contributes to `unique_dirs`
(src/src/pack.rs lines 92-100): trim, map empty and "." to ".", else
replace backslashes by slashes. -/
def normDirOf (f : PFile) : List Nat :=
  let d := trimBytes f.directory
  if d = [] ∨ d = rootDirStr then rootDirStr else replByte 92 47 d

/-- Lexicographic byte comparison, the `Ord` used by Rust to sort the
directory strings. -/
def lexLe : List Nat → List Nat → Bool
  | [], _ => true
  | _ :: _, [] => false
  | a :: as0, b :: bs0 =>
      if a < b then true
      else if b < a then false
      else lexLe as0 bs0

/-- Insertion step of the directory sort. -/
def insertLex (d : List Nat) : List (List Nat) → List (List Nat)
  | [] => [d]
  | e :: rest => if lexLe d e then d :: e :: rest else e :: insertLex d rest

/-- Sort byte strings lexicographically. -/
def sortLex : List (List Nat) → List (List Nat)
  | [] => []
  | d :: rest => insertLex d (sortLex rest)

/-- `sorted_dirs` (src/src/pack.rs lines 92-109): the set of normalized
directory keys plus ".", sorted, with "." moved to the front. -/
def sortedDirs (cfg : PackConfig) : List (List Nat) :=
  let us := ((cfg.files.map normDirOf) ++ [rootDirStr]).dedup
  let sorted := sortLex us
  rootDirStr :: sorted.filter (fun d => d ≠ rootDirStr)

/-- The `dir_map` lookup when the file map is serialized
(src/src/pack.rs lines 130-137): the key is the untrimmed directory
with backslashes replaced, mapped to its index in `sorted_dirs`, with
0 as the fallback of `unwrap_or`. -/
def dirIdOf (cfg : PackConfig) (f : PFile) : Nat :=
  let rd := replByte 92 47 f.directory
  let key := if rd = [] ∨ rd = rootDirStr then rootDirStr else rd
  ((sortedDirs cfg).indexOf key)

/-- Whether any configured chunk encodes the DZ_RANGE bit
(src/src/pack.rs lines 39-46). -/
def cfgHasDz (cfg : PackConfig) : Bool :=
  cfg.chunks.any (fun c => hasDzFlag (encodeFlags c.flagNames))

/-- The serialized file→chunk map block. -/
def fileMapBytes (cfg : PackConfig) : List Nat :=
  (cfg.files.map (fun f =>
    writeU16le (dirIdOf cfg f)
      ++ (f.chunks.map writeU16le).flatten
      ++ writeU16le CHUNK_LIST_TERMINATOR)).flatten

/-- Byte offset of the zeroed chunk-table slot inside the header buffer
(`chunk_table_start`, src/src/pack.rs line 147). -/
def chunkTableStart (cfg : PackConfig) : Nat :=
  9 + (cfg.files.map (fun f => f.filename.length + 1)).sum
    + (((sortedDirs cfg).drop 1).map (fun d => d.length + 1)).sum
    + (fileMapBytes cfg).length + 4

/-- The header buffer built before compression (src/src/pack.rs lines
116-177): magic, counts, version 0, filenames, directory strings (root
omitted, slashes written back as backslashes), file map, chunk-table
header, a zeroed chunk-table slot, split names, and the ten
range-settings bytes when a DZ_RANGE chunk exists (zeros when the
config has none). -/
def headerBuffer (cfg : PackConfig) : List Nat :=
  writeU32le MAGIC
    ++ writeU16le cfg.files.length
    ++ writeU16le (sortedDirs cfg).length
    ++ [0]
    ++ (cfg.files.map (fun f => f.filename ++ [0])).flatten
    ++ (((sortedDirs cfg).drop 1).map (fun d => replByte 47 92 d ++ [0])).flatten
    ++ fileMapBytes cfg
    ++ writeU16le (1 + cfg.archiveFiles.length)
    ++ writeU16le cfg.chunks.length
    ++ List.replicate (16 * cfg.chunks.length) 0
    ++ (cfg.archiveFiles.map (fun n => n ++ [0])).flatten
    ++ (if cfgHasDz cfg then
          match cfg.rangeSettings with
          | some rs => rs.take 10 ++ List.replicate (10 - rs.length) 0
          | none => List.replicate 10 0
        else [])

/-- Overwrite the bytes of `dst` starting at `pos` with `src` (the
seek-back patch of the chunk table, src/src/pack.rs lines 363-365). -/
def overwriteAt (dst : List Nat) (pos : Nat) (src : List Nat) : List Nat :=
  dst.take pos ++ src ++ dst.drop (pos + src.length)

/-! ### The ordered writer thread (src/src/pack.rs lines 244-329) -/

/-- Remove the entry stored under position index `i` from the reorder
buffer (`buffer.remove(&next_idx)`); the buffer is kept as an
association list with the latest insertion in front, matching the
HashMap's overwrite semantics. -/
def takeEntry (i : Nat) : List (Nat × List Nat) →
    Option (List Nat × List (Nat × List Nat))
  | [] => none
  | (j, d) :: rest =>
      if j = i then some (d, rest)
      else match takeEntry i rest with
        | some (x, r) => some (x, (j, d) :: r)
        | none => none

theorem takeEntry_length {i : Nat} :
    ∀ {buf : List (Nat × List Nat)} {d rest},
      takeEntry i buf = some (d, rest) → rest.length + 1 = buf.length := by
  intro buf
  induction buf with
  | nil => intro d rest h; simp [takeEntry] at h
  | cons hd tl ih =>
      intro d rest h
      by_cases hj : hd.1 = i
      · simp [takeEntry, hj] at h
        simp [← h.2]
      · simp only [takeEntry, hj, if_neg] at h
        cases htl : takeEntry i tl with
        | none => rw [htl] at h; simp at h
        | some pr =>
            rw [htl] at h
            cases pr with
            | mk x r =>
                simp at h
                obtain ⟨h1, h2⟩ := h
                have := ih htl
                simp [← h2, ← this]

/-- Drain the reorder buffer of consecutively ready positions
(the `buffer.remove(&next_idx)` fast path of the writer loop): emits
the drained `(position, data)` writes, the new next position and the
remaining buffer. -/
def flushReady (next : Nat) (buf : List (Nat × List Nat)) :
    List (Nat × List Nat) × Nat × List (Nat × List Nat) :=
  match h : takeEntry next buf with
  | none => ([], next, buf)
  | some (d, buf1) =>
      let r := flushReady (next + 1) buf1
      ((next, d) :: r.1, r.2)
termination_by buf.length
decreasing_by
  have := takeEntry_length h
  omega

/-- The writer thread's receive loop: messages `(position, buffer)`
arrive in any order; the one matching `next_idx` is written at once and
the reorder buffer drained, any other is buffered.  Returns the writes
in the order they are performed. -/
def runWriter : List (Nat × List Nat) → Nat → List (Nat × List Nat) →
    List (Nat × List Nat)
  | [], _, _ => []
  | (i, d) :: rest, next, buf =>
      if i = next then
        let f := flushReady (next + 1) buf
        (next, d) :: f.1 ++ runWriter rest f.2.1 f.2.2
      else
        runWriter rest next ((i, d) :: buf)

/-- The write step applied per chunk in ascending position order
(src/src/pack.rs lines 274-322): look up the target volume (an
`archive_file_index` beyond the configured splits is a `Config`
error), record the volume's running offset, write the buffer, record
its size, advance the volume offset (u32 arithmetic).  `off` carries
the running offset of every volume. -/
def assignChunks (numSplits : Nat) :
    List (PChunkDef × List Nat) → (Nat → Nat) →
    Except Unit (List PChunkDef)
  | [], _ => .ok []
  | (c, d) :: rest, off =>
      if c.archiveFileIndex ≤ numSplits then
        let off1 := fun v =>
          if v = c.archiveFileIndex then
            (off v + d.length % 4294967296) % 4294967296
          else off v
        match assignChunks numSplits rest off1 with
        | .ok rs =>
            .ok ({ c with
              offset := off c.archiveFileIndex,
              sizeCompressed := d.length % 4294967296 } :: rs)
        | .error e => .error e
      else .error ()

/-- Stable insertion by ascending chunk id (`sort_by_key(|c| c.id)`,
src/src/pack.rs line 204). -/
def insertById (c : PChunkDef) : List PChunkDef → List PChunkDef
  | [] => [c]
  | e :: rest => if c.id ≤ e.id then c :: e :: rest else e :: insertById c rest

/-- `sorted_chunks_def`: the configured chunks sorted by id. -/
def sortById : List PChunkDef → List PChunkDef
  | [] => []
  | c :: rest => insertById c (sortById rest)

/-! ## Full pipeline: single-file pack and unpack (C8) -/

/-- Unpack failure: a metadata-load error or a per-file extraction
error. -/
inductive UnpackErr (ε : Type) where
  | load (e : LoadErr)
  | extract (e : ExtractErr ε)
  deriving Repr, DecidableEq

/-- Extract every mapped file in order (the parallel loop of
`UnpackPlan::extract`, whose per-file outputs are independent). -/
def extractAll {ε : Type} (chunks : List RawChunk)
    (vol : Nat → Option (List Nat))
    (decomp : Nat → Nat → List Nat → Except ε (List Nat))
    (keepRaw : Bool) : List FileMapEntry →
    Except (ExtractErr ε) (List (List Nat))
  | [] => .ok []
  | e :: rest =>
      match extractFile chunks vol decomp keepRaw e.chunkIds [] with
      | .error er => .error er
      | .ok out =>
          match extractAll chunks vol decomp keepRaw rest with
          | .error er => .error er
          | .ok outs => .ok (out :: outs)

/-- `do_unpack` over a single-volume archive: load the metadata,
reconcile chunk sizes against the volume length, extract every file.
Returns the list of extracted files' bytes, in file order. -/
def unpackArchive {ε : Type} (bytes : List Nat)
    (decomp : Nat → Nat → List Nat → Except ε (List Nat))
    (keepRaw : Bool) : Except (UnpackErr ε) (List (List Nat)) :=
  match loadMetadata bytes bytes.length with
  | .error e => .error (.load e)
  | .ok meta =>
      let chunks := calcChunkSizes meta.rawChunks
        (fun v => if v = 0 then meta.mainFileLen else 0)
      match extractAll chunks (fun v => if v = 0 then some bytes else none)
        decomp keepRaw meta.mapEntries with
      | .error e => .error (.extract e)
      | .ok outs => .ok outs

/-- The pack configuration for one file with one chunk on volume 0
(the shape of spec scenario 1): root directory, chunk id 0, declared
decompressed size `n`. -/
def singleCfg (name : List Nat) (flagName : String) (n : Nat) : PackConfig :=
  ⟨[⟨name, rootDirStr, [0]⟩], [⟨0, [flagName], 0, 0, n, 0⟩], [], none⟩

/-- `do_pack` on a single-file configuration: build the header buffer
(chunk-table slot zeroed), read the file's declared range and compress
it, write the buffer after the header through the ordered writer, and
patch the chunk table at `chunk_table_start` with the final records. -/
def packSingle (name : List Nat) (flagName : String) (fileBytes : List Nat)
    (compress : List Nat → List Nat) : List Nat :=
  let cfg := singleCfg name flagName fileBytes.length
  let hdr := headerBuffer cfg
  let buf := compress (fileBytes.take fileBytes.length)
  match assignChunks cfg.archiveFiles.length
      ((sortById cfg.chunks).zip [buf])
      (fun v => if v = 0 then hdr.length % 4294967296 else 0) with
  | .ok rs =>
      let table := (rs.map (fun r =>
        writeU32le r.offset ++ writeU32le r.sizeCompressed ++
          writeU32le r.sizeDecompressed ++
          writeU16le (encodeFlags r.flagNames) ++
          writeU16le r.archiveFileIndex)).flatten
      overwriteAt (hdr ++ buf) (chunkTableStart cfg) table
  | .error _ => []

theorem singleCfg_sortedDirs (name : List Nat) (flagName : String) (n : Nat) :
    sortedDirs (singleCfg name flagName n) = [rootDirStr] := rfl

theorem singleCfg_fileMap (name : List Nat) (flagName : String) (nn : Nat) :
    fileMapBytes (singleCfg name flagName nn) = [0, 0, 0, 0, 255, 255] := by
  have hdir : dirIdOf (singleCfg name flagName nn) ⟨name, rootDirStr, [0]⟩ = 0 := rfl
  rw [fileMapBytes]
  rw [show (singleCfg name flagName nn).files = [⟨name, rootDirStr, [0]⟩] from rfl]
  simp only [List.map_cons, List.map_nil, List.flatten, hdir]
  norm_num [writeU16le, CHUNK_LIST_TERMINATOR]

theorem singleCfg_header (name : List Nat) (flagName : String) (n : Nat)
    (hflag : encodeFlags [flagName] &&& 4 = 0) :
    headerBuffer (singleCfg name flagName n) =
      [68, 84, 82, 90, 1, 0, 1, 0, 0] ++ name ++
        ([0, 0, 0, 0, 0, 255, 255, 1, 0, 1, 0] ++ List.replicate 16 0) := by
  have hdz : cfgHasDz (singleCfg name flagName n) = false := by
    simp [cfgHasDz, singleCfg, hasDzFlag, hflag]
  rw [headerBuffer, hdz, singleCfg_sortedDirs, singleCfg_fileMap]
  rw [show (singleCfg name flagName n).files = [⟨name, rootDirStr, [0]⟩] from rfl]
  rw [show (singleCfg name flagName n).chunks
    = [⟨0, [flagName], 0, 0, n, 0⟩] from rfl]
  rw [show (singleCfg name flagName n).archiveFiles = [] from rfl]
  simp [writeU16le, writeU32le, MAGIC, rootDirStr]


example (name : List Nat) (flagName : String) (nn : Nat) :
    dirIdOf (singleCfg name flagName nn) ⟨name, rootDirStr, [0]⟩ = 0 := rfl

theorem readU16le_write (v : Nat) (r : List Nat) :
    readU16le (writeU16le v ++ r) = some (v % 65536, r) := by
  simp only [writeU16le, List.cons_append, List.nil_append, readU16le]
  have h1 : v % 65536 = v % 256 + 256 * (v / 256 % 256) := by
    rw [show (65536 : Nat) = 256 * 256 from rfl, Nat.mod_mul]
  rw [h1]

theorem readU32le_write (v : Nat) (r : List Nat) :
    readU32le (writeU32le v ++ r) = some (v % 4294967296, r) := by
  simp only [writeU32le, List.cons_append, List.nil_append, readU32le]
  have h1 : v % 4294967296 = v % 256 + 256 * (v / 256 % 16777216) := by
    rw [show (4294967296 : Nat) = 256 * 16777216 from rfl, Nat.mod_mul]
  have h2 : v / 256 % 16777216 = v / 256 % 256 + 256 * (v / 65536 % 65536) := by
    rw [show (16777216 : Nat) = 256 * 65536 from rfl, Nat.mod_mul,
      Nat.div_div_eq_div_mul]
  have h3 : v / 65536 % 65536 = v / 65536 % 256 + 256 * (v / 16777216 % 256) := by
    rw [show (65536 : Nat) = 256 * 256 from rfl, Nat.mod_mul,
      Nat.div_div_eq_div_mul]
  rw [h1, h2, h3]
  ring_nf

theorem readNullStr_append (s : List Nat) (rest : List Nat) (h : 0 ∉ s) :
    readNullStr (s ++ 0 :: rest) = some (s, rest) := by
  induction s with
  | nil => simp [readNullStr]
  | cons b tl ih =>
      have hb : b ≠ 0 := by
        intro hb0
        exact h (by simp [hb0])
      rw [List.cons_append, readNullStr, if_neg hb,
        ih (fun hm => h (by simp [hm]))]

theorem flagBit_le (f : String) : flagBit f ≤ 1024 := by
  rw [flagBit]
  split_ifs <;> omega

theorem encodeFlags_single_le (f : String) : encodeFlags [f] ≤ 1024 := by
  rw [encodeFlags]
  have h := flagBit_le f
  simp only [List.foldl_cons, List.foldl_nil, Nat.zero_or]
  split_ifs <;> omega

theorem singleCfg_tableStart (name : List Nat) (flagName : String) (n : Nat) :
    chunkTableStart (singleCfg name flagName n) = name.length + 20 := by
  rw [chunkTableStart, singleCfg_sortedDirs, singleCfg_fileMap]
  rw [show (singleCfg name flagName n).files
    = [⟨name, rootDirStr, [0]⟩] from rfl]
  simp
  omega

theorem singleCfg_header_length (name : List Nat) (flagName : String)
    (n : Nat) (hflag : encodeFlags [flagName] &&& 4 = 0) :
    (headerBuffer (singleCfg name flagName n)).length = name.length + 36 := by
  rw [singleCfg_header name flagName n hflag]
  simp

/-- `packSingle` laid out explicitly: the header front (magic, counts,
filename, file map, chunk-table header), the patched 16-byte chunk
record, then the compressed buffer. -/
theorem packSingle_eq (name : List Nat) (flagName : String)
    (fileBytes : List Nat) (compress : List Nat → List Nat)
    (hflag : encodeFlags [flagName] &&& 4 = 0) :
    packSingle name flagName fileBytes compress =
      ([68, 84, 82, 90, 1, 0, 1, 0, 0] ++ name ++
        [0, 0, 0, 0, 0, 255, 255, 1, 0, 1, 0]) ++
      ((writeU32le ((name.length + 36) % 4294967296) ++
        writeU32le ((compress fileBytes).length % 4294967296) ++
        writeU32le fileBytes.length ++
        writeU16le (encodeFlags [flagName]) ++
        writeU16le 0) ++
      compress fileBytes) := by
  rw [packSingle]
  simp only [List.take_length]
  rw [show (singleCfg name flagName fileBytes.length).archiveFiles
    = [] from rfl]
  rw [show sortById (singleCfg name flagName fileBytes.length).chunks
    = [⟨0, [flagName], 0, 0, fileBytes.length, 0⟩] from rfl]
  rw [singleCfg_header_length name flagName fileBytes.length hflag]
  have hassign : assignChunks 0
      [(⟨0, [flagName], 0, 0, fileBytes.length, 0⟩, compress fileBytes)]
      (fun v => if v = 0 then (name.length + 36) % 4294967296 else 0)
      = .ok [⟨0, [flagName], (name.length + 36) % 4294967296,
          (compress fileBytes).length % 4294967296, fileBytes.length, 0⟩] := by
    rw [assignChunks]
    simp [assignChunks]
  rw [show ([⟨0, [flagName], 0, 0, fileBytes.length, 0⟩]
      : List PChunkDef).zip [compress fileBytes]
    = [(⟨0, [flagName], 0, 0, fileBytes.length, 0⟩, compress fileBytes)]
    from rfl]
  simp only [List.length_nil]
  rw [hassign]
  simp only [List.length_nil, List.map_cons, List.map_nil, List.flatten_cons,
    List.flatten_nil, List.append_nil]
  rw [singleCfg_tableStart]
  rw [overwriteAt, singleCfg_header name flagName fileBytes.length hflag]
  have hlen16 : (writeU32le ((name.length + 36) % 4294967296) ++
      writeU32le ((compress fileBytes).length % 4294967296) ++
      writeU32le fileBytes.length ++
      writeU16le (encodeFlags [flagName]) ++
      writeU16le 0).length = 16 := by
    simp [writeU32le, writeU16le]
  rw [hlen16]
  have hfront : ([68, 84, 82, 90, 1, 0, 1, 0, 0] ++ name ++
      ([0, 0, 0, 0, 0, 255, 255, 1, 0, 1, 0] ++ List.replicate 16 0)) ++
        compress fileBytes
      = ([68, 84, 82, 90, 1, 0, 1, 0, 0] ++ name ++
        [0, 0, 0, 0, 0, 255, 255, 1, 0, 1, 0]) ++
        (List.replicate 16 0 ++ compress fileBytes) := by
    simp [List.append_assoc]
  rw [hfront]
  have htake : (([68, 84, 82, 90, 1, 0, 1, 0, 0] ++ name ++
      [0, 0, 0, 0, 0, 255, 255, 1, 0, 1, 0]) ++
        (List.replicate 16 0 ++ compress fileBytes)).take (name.length + 20)
      = [68, 84, 82, 90, 1, 0, 1, 0, 0] ++ name ++
        [0, 0, 0, 0, 0, 255, 255, 1, 0, 1, 0] := by
    rw [show name.length + 20 = ([68, 84, 82, 90, 1, 0, 1, 0, 0] ++ name ++
      [0, 0, 0, 0, 0, 255, 255, 1, 0, 1, 0]).length from by simp]
    exact List.take_left _ _
  have hdrop : (([68, 84, 82, 90, 1, 0, 1, 0, 0] ++ name ++
      [0, 0, 0, 0, 0, 255, 255, 1, 0, 1, 0]) ++
        (List.replicate 16 0 ++ compress fileBytes)).drop (name.length + 20 + 16)
      = compress fileBytes := by
    have hre : ([68, 84, 82, 90, 1, 0, 1, 0, 0] ++ name ++
        [0, 0, 0, 0, 0, 255, 255, 1, 0, 1, 0]) ++
          (List.replicate 16 0 ++ compress fileBytes)
        = (([68, 84, 82, 90, 1, 0, 1, 0, 0] ++ name ++
          [0, 0, 0, 0, 0, 255, 255, 1, 0, 1, 0]) ++ List.replicate 16 0) ++
            compress fileBytes := by
      simp [List.append_assoc]
    rw [hre]
    rw [show name.length + 20 + 16 = (([68, 84, 82, 90, 1, 0, 1, 0, 0] ++
      name ++ [0, 0, 0, 0, 0, 255, 255, 1, 0, 1, 0]) ++
        List.replicate 16 0).length from by simp]
    exact List.drop_left _ _
  rw [htake, hdrop]
  simp [List.append_assoc]

theorem readStrings_succ (n : Nat) (bs : List Nat) :
    readStrings (n + 1) bs =
      match readNullStr bs with
      | none => none
      | some (s, rest) =>
          match readStrings n rest with
          | none => none
          | some (ss, r) => some (s :: ss, r) := rfl

theorem readFileMap_succ (n : Nat) (bs : List Nat) :
    readFileMap (n + 1) bs =
      match readU16le bs with
      | none => none
      | some (d, rest) =>
          match readChunkIds rest with
          | none => none
          | some (ids, r1) =>
              match readFileMap n r1 with
              | none => none
              | some (es, r2) => some (⟨d, ids⟩ :: es, r2) := rfl

theorem readChunks_succ (i n : Nat) (bs : List Nat) :
    readChunks i (n + 1) bs =
      match readU32le bs with
      | none => none
      | some (off, r1) =>
          match readU32le r1 with
          | none => none
          | some (clen, r2) =>
              match readU32le r2 with
              | none => none
              | some (dlen, r3) =>
                  match readU16le r3 with
                  | none => none
                  | some (fl, r4) =>
                      match readU16le r4 with
                      | none => none
                      | some (fi, r5) =>
                          match readChunks (i + 1) n r5 with
                          | none => none
                          | some (cs, r6) =>
                              some (⟨i, off, clen, dlen, fl, fi, 0⟩ :: cs, r6) := rfl

/-- Loading the metadata of a packed single-file archive recovers the
written structure exactly. -/
theorem loadMetadata_packSingle
    (name : List Nat) (flagName : String) (fileBytes : List Nat)
    (compress : List Nat → List Nat)
    (hname : 0 ∉ name) (hflag : encodeFlags [flagName] &&& 4 = 0)
    (hlen : name.length + 36 + (compress fileBytes).length < 4294967296)
    (hfitd : fileBytes.length < 4294967296) (mainLen : Nat) :
    loadMetadata (packSingle name flagName fileBytes compress) mainLen
      = .ok ⟨0, [name], [rootDirStr], [⟨0, [0]⟩],
          [⟨0, name.length + 36, (compress fileBytes).length,
            fileBytes.length, encodeFlags [flagName], 0, 0⟩],
          [], none, mainLen⟩ := by
  rw [packSingle_eq name flagName fileBytes compress hflag]
  have hoff1 : ((name.length + 36) % 4294967296) % 4294967296
      = name.length + 36 := by omega
  have hoff2 : ((compress fileBytes).length % 4294967296) % 4294967296
      = (compress fileBytes).length := by omega
  have hdl : fileBytes.length % 4294967296 = fileBytes.length := by omega
  have hfl : encodeFlags [flagName] % 65536 = encodeFlags [flagName] := by
    have := encodeFlags_single_le flagName
    omega
  simp only [List.append_assoc, List.cons_append, List.nil_append]
  rw [loadMetadata]
  rw [parseHeader]
  simp only [readU32le, readU16le, readU8]
  norm_num [MAGIC]
  rw [readStrings_succ, readNullStr_append _ _ hname]
  simp only [readStrings]
  rw [readFileMap_succ]
  simp only [readU16le, readChunkIds, readFileMap]
  norm_num [CHUNK_LIST_TERMINATOR]
  rw [readChunks_succ]
  simp only [readU32le_write, readU16le_write, readChunks]
  simp only [hoff1, hoff2, hdl, hfl]
  simp [hasDzFlag, hflag]

theorem calcChunkSizes_singleton (c : RawChunk) (volLen : Nat → Nat) :
    calcChunkSizes [c] volLen =
      [{ c with realCLen :=
        if volLen c.fileIdx % 4294967296 < c.offset then c.headCLen
        else volLen c.fileIdx % 4294967296 - c.offset }] := by
  have hr : List.range 1 = [0] := rfl
  simp [calcChunkSizes, realCLenAt, nextOffsetOf, sortedGroup, sortByOffset,
    insertByOffset, hr, List.filter, List.indexOf, List.findIdx,
    List.findIdx.go]

theorem packSingle_length (name : List Nat) (flagName : String)
    (fileBytes : List Nat) (compress : List Nat → List Nat)
    (hflag : encodeFlags [flagName] &&& 4 = 0) :
    (packSingle name flagName fileBytes compress).length
      = name.length + 36 + (compress fileBytes).length := by
  rw [packSingle_eq name flagName fileBytes compress hflag]
  simp [writeU32le, writeU16le]
  omega

/-- C8: packing a byte sequence with any codec and unpacking the
result reproduces the bytes exactly, given the codec pair satisfies
the decompress-compress roundtrip law. -/
theorem pack_unpack_roundtrip {ε : Type}
    (name fileBytes : List Nat) (flagName : String)
    (compress : List Nat → List Nat)
    (decomp : Nat → Nat → List Nat → Except ε (List Nat)) (keepRaw : Bool)
    (hname : 0 ∉ name)
    (hflag : encodeFlags [flagName] &&& 4 = 0)
    (hfitd : fileBytes.length < 4294967296)
    (hlen : name.length + 36 + (compress fileBytes).length < 4294967296)
    (hrt : decomp (encodeFlags [flagName]) fileBytes.length
      (compress fileBytes) = .ok fileBytes) :
    unpackArchive (packSingle name flagName fileBytes compress)
      decomp keepRaw = .ok [fileBytes] := by
  rw [unpackArchive]
  rw [loadMetadata_packSingle name flagName fileBytes compress hname hflag
    hlen hfitd]
  simp only []
  rw [calcChunkSizes_singleton]
  rw [packSingle_length name flagName fileBytes compress hflag]
  simp only [if_true]
  rw [Nat.mod_eq_of_lt hlen, if_neg (by omega)]
  have hreal : name.length + 36 + (compress fileBytes).length
      - (name.length + 36) = (compress fileBytes).length := by omega
  rw [hreal]
  have hdrop : (packSingle name flagName fileBytes compress).drop
      (name.length + 36) = compress fileBytes := by
    rw [packSingle_eq name flagName fileBytes compress hflag,
      ← List.append_assoc]
    rw [List.drop_left' (by simp [writeU32le, writeU16le])]
  simp only [extractAll, extractFile, lookupChunk, List.foldl]
  norm_num
  rw [hdrop, List.take_length, hrt]

theorem pack_unpack_roundtrip_witness :
    unpackArchive (packSingle [97] "COPY" [119, 111, 114, 108, 100]
        (fun b => b))
      (fun _ _ b => (Except.ok b : Except Unit (List Nat))) false
      = .ok [[119, 111, 114, 108, 100]] :=
  pack_unpack_roundtrip [97] [119, 111, 114, 108, 100] "COPY"
    (fun b => b) (fun _ _ b => .ok b) false
    (by decide) (by decide) (by decide) (by decide) rfl

/-! ## Supporting lemmas -/

theorem readStrings_length :
    ∀ {n : Nat} {bs : List Nat} {r : List Nat} {out : List (List Nat)},
      readStrings n bs = some (out, r) → out.length = n := by
  intro n
  induction n with
  | zero =>
      intro bs r out h
      simp [readStrings] at h
      simp [← h.1]
  | succ k ih =>
      intro bs r out h
      simp only [readStrings] at h
      cases h1 : readNullStr bs with
      | none => rw [h1] at h; simp at h
      | some pr =>
          rw [h1] at h
          cases pr with
          | mk s rest =>
              simp only at h
              cases h2 : readStrings k rest with
              | none => rw [h2] at h; simp at h
              | some pr2 =>
                  rw [h2] at h
                  cases pr2 with
                  | mk ss2 r2 =>
                      simp only [Option.some.injEq, Prod.mk.injEq] at h
                      have := ih h2
                      simp [← h.1, this]

/-! ## Claim theorems -/

/-- C4: for every input stream whose leading little-endian u32 is
readable, the older reader front-end fails with `InvalidMagic` carrying
exactly that value if and only if the value differs from the DTRZ
magic. -/
theorem wrong_magic_rejected_with_found_value
    (bs : List Nat) (v : Nat) (rest : List Nat)
    (hread : readU32le bs = some (v, rest)) :
    (oldReadHeader bs = .error (.invalidMagic v)) ↔ v ≠ MAGIC := by
  constructor
  · intro h hv
    subst hv
    simp only [oldReadHeader, hread] at h
    simp only [ne_eq, not_true_eq_false, if_false, ite_false] at h
    cases h2 : readU16le rest with
    | none => rw [h2] at h; exact (OldErr.noConfusion (Except.error.inj h))
    | some pr =>
        rw [h2] at h
        cases pr with
        | mk nf r1 =>
            simp only at h
            cases h3 : readU16le r1 with
            | none => rw [h3] at h; exact (OldErr.noConfusion (Except.error.inj h))
            | some pr2 =>
                rw [h3] at h
                cases pr2 with
                | mk nd r2 =>
                    simp only at h
                    cases h4 : readU8 r2 with
                    | none =>
                        rw [h4] at h
                        exact (OldErr.noConfusion (Except.error.inj h))
                    | some pr3 =>
                        rw [h4] at h
                        cases pr3 with
                        | mk ver r3 => simp at h
  · intro hv
    simp [oldReadHeader, hread, hv]

/-- Witness for C4: the stream starting `01 02 03 04` has leading u32
`0x04030201 ≠ MAGIC` and is rejected with `InvalidMagic 0x04030201`. -/
theorem wrong_magic_rejected_witness :
    oldReadHeader [1, 2, 3, 4] = .error (.invalidMagic 67305985) :=
  (wrong_magic_rejected_with_found_value [1, 2, 3, 4] 67305985 []
    (by rfl)).mpr (by decide)

/-- C5 counterexample: an archive whose header carries `num_dirs = 0`
(bytes 6-7) parses successfully — the loader raises no Format error —
and the emitted directory list is `["."]` of length 1 ≠ 0. -/
theorem num_dirs_zero_accepted :
    parseHeader [68, 84, 82, 90, 0, 0, 0, 0, 0, 1, 0, 0, 0]
        = .ok (⟨0, 0, 0⟩, [1, 0, 0, 0]) ∧
    loadMetadata [68, 84, 82, 90, 0, 0, 0, 0, 0, 1, 0, 0, 0] 13
        = .ok ⟨0, [], [rootDirStr], [], [], [], none, 13⟩ := by
  exact ⟨rfl, rfl⟩

/-- C5 amended: the loader accepts `num_dirs = 0`; for every
successfully parsed archive the directory list begins with the
implicit root "." and has length `max 1 num_dirs` — exactly
`num_dirs` whenever `num_dirs ≥ 1`. -/
theorem directory_list_length
    (bs : List Nat) (len : Nat) (hdr : Header) (r : List Nat) (m : Metadata)
    (hh : parseHeader bs = .ok (hdr, r))
    (hm : loadMetadata bs len = .ok m) :
    m.directories.length = max 1 hdr.numDirs ∧
      m.directories.head? = some rootDirStr := by
  simp only [loadMetadata, hh] at hm
  cases h1 : readStrings hdr.numFiles r with
  | none => rw [h1] at hm; cases hm
  | some pr1 =>
  rw [h1] at hm
  cases pr1 with
  | mk userFiles r1 =>
  simp only at hm
  by_cases hd : hdr.numDirs > 1
  · simp only [hd, if_true, if_pos] at hm
    cases h2 : readStrings (hdr.numDirs - 1) r1 with
    | none => rw [h2] at hm; cases hm
    | some pr2 =>
    rw [h2] at hm
    cases pr2 with
    | mk dirs r2 =>
    simp only at hm
    cases h3 : readFileMap hdr.numFiles r2 with
    | none => rw [h3] at hm; cases hm
    | some pr3 =>
    rw [h3] at hm
    cases pr3 with
    | mk mapEntries r3 =>
    simp only at hm
    cases h4 : readU16le r3 with
    | none => rw [h4] at hm; cases hm
    | some pr4 =>
    rw [h4] at hm
    cases pr4 with
    | mk numArch r4 =>
    simp only at hm
    cases h5 : readU16le r4 with
    | none => rw [h5] at hm; cases hm
    | some pr5 =>
    rw [h5] at hm
    cases pr5 with
    | mk numChunks r5 =>
    simp only at hm
    cases h6 : readChunks 0 numChunks r5 with
    | none => rw [h6] at hm; cases hm
    | some pr6 =>
    rw [h6] at hm
    cases pr6 with
    | mk chunks r6 =>
    simp only at hm
    by_cases ha : numArch > 1
    · simp only [ha, if_true, if_pos] at hm
      cases h7 : readStrings (numArch - 1) r6 with
      | none => rw [h7] at hm; cases hm
      | some pr7 =>
      rw [h7] at hm
      cases pr7 with
      | mk splits r7 =>
      simp only at hm
      by_cases hdz : chunks.any (fun c => hasDzFlag c.flags) = true
      · simp only [hdz, if_true, if_pos] at hm
        by_cases hlen : r7.length < 10
        · simp [hlen] at hm
        · simp only [hlen, if_false, if_neg, not_false_iff] at hm
          cases hm
          have := readStrings_length h2
          simp [this]
          omega
      · simp only [hdz, if_false, Bool.not_eq_true, if_neg, not_false_iff] at hm
        cases hm
        have := readStrings_length h2
        simp [this]
        omega
    · simp only [ha, if_false, if_neg, not_false_iff] at hm
      by_cases hdz : chunks.any (fun c => hasDzFlag c.flags) = true
      · simp only [hdz, if_true, if_pos] at hm
        by_cases hlen : r6.length < 10
        · simp [hlen] at hm
        · simp only [hlen, if_false, if_neg, not_false_iff] at hm
          cases hm
          have := readStrings_length h2
          simp [this]
          omega
      · simp only [hdz, if_false, Bool.not_eq_true, if_neg, not_false_iff] at hm
        cases hm
        have := readStrings_length h2
        simp [this]
        omega
  · simp only [hd, if_false, if_neg, not_false_iff] at hm
    cases h3 : readFileMap hdr.numFiles r1 with
    | none => rw [h3] at hm; cases hm
    | some pr3 =>
    rw [h3] at hm
    cases pr3 with
    | mk mapEntries r3 =>
    simp only at hm
    cases h4 : readU16le r3 with
    | none => rw [h4] at hm; cases hm
    | some pr4 =>
    rw [h4] at hm
    cases pr4 with
    | mk numArch r4 =>
    simp only at hm
    cases h5 : readU16le r4 with
    | none => rw [h5] at hm; cases hm
    | some pr5 =>
    rw [h5] at hm
    cases pr5 with
    | mk numChunks r5 =>
    simp only at hm
    cases h6 : readChunks 0 numChunks r5 with
    | none => rw [h6] at hm; cases hm
    | some pr6 =>
    rw [h6] at hm
    cases pr6 with
    | mk chunks r6 =>
    simp only at hm
    by_cases ha : numArch > 1
    · simp only [ha, if_true, if_pos] at hm
      cases h7 : readStrings (numArch - 1) r6 with
      | none => rw [h7] at hm; cases hm
      | some pr7 =>
      rw [h7] at hm
      cases pr7 with
      | mk splits r7 =>
      simp only at hm
      by_cases hdz : chunks.any (fun c => hasDzFlag c.flags) = true
      · simp only [hdz, if_true, if_pos] at hm
        by_cases hlen : r7.length < 10
        · simp [hlen] at hm
        · simp only [hlen, if_false, if_neg, not_false_iff] at hm
          cases hm
          simp
          omega
      · simp only [hdz, if_false, Bool.not_eq_true, if_neg, not_false_iff] at hm
        cases hm
        simp
        omega
    · simp only [ha, if_false, if_neg, not_false_iff] at hm
      by_cases hdz : chunks.any (fun c => hasDzFlag c.flags) = true
      · simp only [hdz, if_true, if_pos] at hm
        by_cases hlen : r6.length < 10
        · simp [hlen] at hm
        · simp only [hlen, if_false, if_neg, not_false_iff] at hm
          cases hm
          simp
          omega
      · simp only [hdz, if_false, Bool.not_eq_true, if_neg, not_false_iff] at hm
        cases hm
        simp
        omega

/-- Witness for C5 amended: on a two-directory archive the parsed
header has `num_dirs = 2` and the directory list is `[".", "a"]`. -/
theorem directory_list_length_witness :
    ([rootDirStr, [97]] : List (List Nat)).length = max 1 2 ∧
      ([rootDirStr, [97]] : List (List Nat)).head? = some rootDirStr := by
  have h := directory_list_length
    [68, 84, 82, 90, 0, 0, 2, 0, 0, 97, 0, 1, 0, 0, 0]
    15 ⟨0, 2, 0⟩ [97, 0, 1, 0, 0, 0]
    ⟨0, [], [rootDirStr, [97]], [], [], [], none, 15⟩ rfl rfl
  exact h

/-- C1 counterexample: a lone uncompressed chunk (flags 0) at offset 10
with header `compressed_length = 3 < available = 10` — the claim's
cascade keeps the header value 3, but `calculate_chunk_sizes` sets
`real_c_len = limit - offset = 10` regardless of flags or header
value. -/
theorem reconciler_diverges_from_claim :
    calcChunkSizes [⟨0, 10, 3, 5, 0, 0, 0⟩] (fun _ => 20)
        = [⟨0, 10, 3, 5, 0, 0, 10⟩] ∧
    nextOffsetOf [⟨0, 10, 3, 5, 0, 0, 0⟩] (fun _ => 20) 0 = 20 ∧
    specRealCLen 0 3 5 10 20 = 3 ∧ (10 : Nat) ≠ 3 :=
  ⟨rfl, rfl, by decide, by decide⟩

/-- C1 amended: the reconciler groups chunks by `file_idx`, sorts each
group by offset, takes `limit` as the next offset in the group (the
volume length for the last chunk), and sets
`real_c_len = limit - offset` whenever `limit ≥ offset` — ignoring the
flags, the header `compressed_length` and the equal-size test — and
falls back to the raw header `compressed_length` when
`limit < offset`. -/
theorem reconciler_formula
    (chunks : List RawChunk) (volLen : Nat → Nat) (i : Nat) (c : RawChunk)
    (hc : chunks.get? i = some c) :
    (calcChunkSizes chunks volLen).get? i =
      some { c with realCLen :=
        if nextOffsetOf chunks volLen i < c.offset then c.headCLen
        else nextOffsetOf chunks volLen i - c.offset } ∧
    (calcChunkSizes chunks volLen).length = chunks.length := by
  have hlt : i < chunks.length := by
    rcases List.get?_eq_some.mp hc with ⟨h, _⟩
    exact h
  have hgetD : chunks.getD i default = c := by
    rw [List.getD_eq_getElem?_getD, ← List.get?_eq_getElem?, hc]
    rfl
  have hel : chunks[i] = c := by
    have h2 := hc
    rw [List.get?_eq_getElem?, List.getElem?_eq_getElem hlt] at h2
    exact Option.some.inj h2
  constructor
  · rw [calcChunkSizes, List.get?_eq_getElem?]
    simp [List.getElem?_map, List.getElem?_range, hlt, realCLenAt, hgetD, hel]
  · simp [calcChunkSizes]

/-- Witness for C1 amended: two chunks on volume 0 at offsets 36 and
41; the first chunk's reconciled length is the gap 5 to its
successor's offset, whatever its header length said. -/
theorem reconciler_formula_witness :
    (calcChunkSizes [⟨0, 36, 9, 5, 256, 0, 0⟩, ⟨1, 41, 100, 7, 8, 0, 0⟩]
        (fun _ => 50)).get? 0 =
      some ⟨0, 36, 9, 5, 256, 0, 5⟩ ∧
    (calcChunkSizes [⟨0, 36, 9, 5, 256, 0, 0⟩, ⟨1, 41, 100, 7, 8, 0, 0⟩]
        (fun _ => 50)).length = 2 := by
  have h := reconciler_formula
    [⟨0, 36, 9, 5, 256, 0, 0⟩, ⟨1, 41, 100, 7, 8, 0, 0⟩]
    (fun _ => 50) 0 ⟨0, 36, 9, 5, 256, 0, 0⟩ rfl
  exact ⟨by rw [h.1]; rfl, h.2⟩

/-- C9: an archive whose header version byte is 1 is not rejected —
`ArchiveMetadata::load` returns metadata with `version = 1`; no
`UnsupportedVersion` error exists anywhere in the code. -/
theorem nonzero_version_accepted :
    loadMetadata [68, 84, 82, 90, 0, 0, 1, 0, 1, 1, 0, 0, 0] 13
      = .ok ⟨1, [], [rootDirStr], [], [], [], none, 13⟩ := rfl

/-! ## Extraction lemmas and theorems (C2, C10) -/

/-- The raw on-disk bytes of a chunk: `real_c_len` bytes of its volume
starting at `offset`. -/
def rawBytesOf (vol : Nat → Option (List Nat)) (c : RawChunk) : List Nat :=
  (((vol c.fileIdx).getD []).drop c.offset).take c.realCLen

/-- A chunk's contribution to the output in keep-raw mode: the decoded
payload, or the raw bytes if the codec fails. -/
def fallbackOut {ε : Type} (decomp : Nat → Nat → List Nat → Except ε (List Nat))
    (vol : Nat → Option (List Nat)) (c : RawChunk) : List Nat :=
  match decomp c.flags c.dLen (rawBytesOf vol c) with
  | .ok out => out
  | .error _ => rawBytesOf vol c

/-- A chunk's decoded payload (meaningful when the codec succeeds). -/
def okOut {ε : Type} (decomp : Nat → Nat → List Nat → Except ε (List Nat))
    (vol : Nat → Option (List Nat)) (c : RawChunk) : List Nat :=
  ((decomp c.flags c.dLen (rawBytesOf vol c)).toOption).getD []

theorem extractFile_keepRaw {ε : Type} (chunks : List RawChunk)
    (vol : Nat → Option (List Nat))
    (decomp : Nat → Nat → List Nat → Except ε (List Nat)) :
    ∀ (ids : List Nat) (acc : List Nat),
      (∀ c ∈ ids.filterMap (lookupChunk chunks), (vol c.fileIdx).isSome) →
      extractFile chunks vol decomp true ids acc =
        .ok (acc ++
          ((ids.filterMap (lookupChunk chunks)).map
            (fallbackOut decomp vol)).flatten) := by
  intro ids
  induction ids with
  | nil => intro acc _; simp [extractFile]
  | cons cid rest ih =>
      intro acc hopen
      cases hl : lookupChunk chunks cid with
      | none =>
          rw [extractFile]
          simp only [hl]
          have := ih acc (by
            intro c hc
            exact hopen c (by simp [List.filterMap_cons, hl, hc]))
          simpa [List.filterMap_cons, hl] using this
      | some c =>
          have hvs : (vol c.fileIdx).isSome := by
            refine hopen c ?_
            simp [List.filterMap_cons, hl]
          cases hv : vol c.fileIdx with
          | none => rw [hv] at hvs; simp at hvs
          | some content =>
              have hraw : (content.drop c.offset).take c.realCLen
                  = rawBytesOf vol c := by
                simp [rawBytesOf, hv]
              rw [extractFile]
              simp only [hl, hv, hraw]
              have hrest : ∀ x ∈ rest.filterMap (lookupChunk chunks),
                  (vol x.fileIdx).isSome := by
                intro x hx
                exact hopen x (by simp [List.filterMap_cons, hl, hx])
              cases hdec : decomp c.flags c.dLen (rawBytesOf vol c) with
              | ok out =>
                  simp only []
                  rw [ih (acc ++ out) hrest]
                  simp [List.filterMap_cons, hl, fallbackOut, hdec]
              | error e =>
                  simp only []
                  rw [ih (acc ++ rawBytesOf vol c) hrest]
                  simp [List.filterMap_cons, hl, fallbackOut, hdec]

theorem extractFile_allOk {ε : Type} (chunks : List RawChunk)
    (vol : Nat → Option (List Nat))
    (decomp : Nat → Nat → List Nat → Except ε (List Nat)) (keepRaw : Bool) :
    ∀ (ids : List Nat) (acc : List Nat),
      (∀ c ∈ ids.filterMap (lookupChunk chunks), (vol c.fileIdx).isSome) →
      (∀ c ∈ ids.filterMap (lookupChunk chunks),
        (decomp c.flags c.dLen (rawBytesOf vol c)).isOk) →
      extractFile chunks vol decomp keepRaw ids acc =
        .ok (acc ++
          ((ids.filterMap (lookupChunk chunks)).map
            (okOut decomp vol)).flatten) := by
  intro ids
  induction ids with
  | nil => intro acc _ _; simp [extractFile]
  | cons cid rest ih =>
      intro acc hopen hok
      cases hl : lookupChunk chunks cid with
      | none =>
          rw [extractFile]
          simp only [hl]
          have := ih acc
            (by intro c hc; exact hopen c (by simp [List.filterMap_cons, hl, hc]))
            (by intro c hc; exact hok c (by simp [List.filterMap_cons, hl, hc]))
          simpa [List.filterMap_cons, hl] using this
      | some c =>
          have hcm : c ∈ (cid :: rest).filterMap (lookupChunk chunks) := by
            simp [List.filterMap_cons, hl]
          have hvs : (vol c.fileIdx).isSome := hopen c hcm
          cases hv : vol c.fileIdx with
          | none => rw [hv] at hvs; simp at hvs
          | some content =>
              have hraw : (content.drop c.offset).take c.realCLen
                  = rawBytesOf vol c := by
                simp [rawBytesOf, hv]
              rw [extractFile]
              simp only [hl, hv, hraw]
              cases hdec : decomp c.flags c.dLen (rawBytesOf vol c) with
              | ok out =>
                  simp only []
                  rw [ih (acc ++ out)
                    (by intro x hx; exact hopen x (by simp [List.filterMap_cons, hl, hx]))
                    (by intro x hx; exact hok x (by simp [List.filterMap_cons, hl, hx]))]
                  simp [List.filterMap_cons, hl, okOut, hdec, Except.toOption]
              | error e =>
                  have := hok c hcm
                  rw [hdec] at this
                  simp [Except.isOk, Except.toBool] at this

theorem extractFile_failsAt {ε : Type} (chunks : List RawChunk)
    (vol : Nat → Option (List Nat))
    (decomp : Nat → Nat → List Nat → Except ε (List Nat)) :
    ∀ (ids : List Nat) (acc : List Nat) (k : Nat) (cbad : RawChunk) (e : ε),
      (∀ c ∈ ids.filterMap (lookupChunk chunks), (vol c.fileIdx).isSome) →
      ((ids.filterMap (lookupChunk chunks)).get? k = some cbad) →
      (∀ j c2, j < k → (ids.filterMap (lookupChunk chunks)).get? j = some c2 →
        (decomp c2.flags c2.dLen (rawBytesOf vol c2)).isOk) →
      decomp cbad.flags cbad.dLen (rawBytesOf vol cbad) = .error e →
      extractFile chunks vol decomp false ids acc = .error (.codec e) := by
  intro ids
  induction ids with
  | nil => intro acc k cbad e _ hk _ _; simp [List.filterMap_nil] at hk
  | cons cid rest ih =>
      intro acc k cbad e hopen hk hprev hbad
      cases hl : lookupChunk chunks cid with
      | none =>
          rw [extractFile]
          simp only [hl]
          refine ih acc k cbad e ?_ ?_ ?_ hbad
          · intro c hc; exact hopen c (by simp [List.filterMap_cons, hl, hc])
          · simpa [List.filterMap_cons, hl] using hk
          · intro j c2 hj hj2
            refine hprev j c2 hj ?_
            simpa [List.filterMap_cons, hl] using hj2
      | some c =>
          have hcm : c ∈ (cid :: rest).filterMap (lookupChunk chunks) := by
            simp [List.filterMap_cons, hl]
          have hvs : (vol c.fileIdx).isSome := hopen c hcm
          cases hv : vol c.fileIdx with
          | none => rw [hv] at hvs; simp at hvs
          | some content =>
              have hraw : (content.drop c.offset).take c.realCLen
                  = rawBytesOf vol c := by
                simp [rawBytesOf, hv]
              rw [extractFile]
              simp only [hl, hv, hraw]
              cases k with
              | zero =>
                  have hc0 : c = cbad := by
                    simpa [List.filterMap_cons, hl] using hk
                  subst hc0
                  simp [hbad]
              | succ k0 =>
                  have hcok : (decomp c.flags c.dLen (rawBytesOf vol c)).isOk := by
                    refine hprev 0 c (Nat.succ_pos k0) ?_
                    simp [List.filterMap_cons, hl]
                  cases hdec : decomp c.flags c.dLen (rawBytesOf vol c) with
                  | error e2 =>
                      rw [hdec] at hcok
                      simp [Except.isOk, Except.toBool] at hcok
                  | ok out =>
                      simp only []
                      refine ih (acc ++ out) k0 cbad e ?_ ?_ ?_ hbad
                      · intro x hx
                        exact hopen x (by simp [List.filterMap_cons, hl, hx])
                      · simpa [List.filterMap_cons, hl] using hk
                      · intro j c2 hj hj2
                        refine hprev (j + 1) c2 (by omega) ?_
                        simpa [List.filterMap_cons, hl] using hj2

/-! ## Pack lemmas (C6, C7) -/

/-- Advance the per-volume running offsets over a prefix of writes
(u32 arithmetic, as the writer tracks them). -/
def advOff (off : Nat → Nat) (ps : List (PChunkDef × List Nat)) : Nat → Nat :=
  ps.foldl
    (fun o cd => fun v =>
      if v = cd.1.archiveFileIndex then
        (o v + cd.2.length % 4294967296) % 4294967296
      else o v)
    off

/-- The writer's per-chunk updates without the volume-existence check
(used to state what `assignChunks` returns when all volumes exist). -/
def assignPure : List (PChunkDef × List Nat) → (Nat → Nat) → List PChunkDef
  | [], _ => []
  | (c, d) :: rest, off =>
      { c with offset := off c.archiveFileIndex,
               sizeCompressed := d.length % 4294967296 } ::
        assignPure rest (fun v =>
          if v = c.archiveFileIndex then
            (off v + d.length % 4294967296) % 4294967296
          else off v)

theorem assignChunks_ok (numSplits : Nat) :
    ∀ (ps : List (PChunkDef × List Nat)) (off : Nat → Nat),
      (∀ p ∈ ps, p.1.archiveFileIndex ≤ numSplits) →
      assignChunks numSplits ps off = .ok (assignPure ps off) := by
  intro ps
  induction ps with
  | nil => intro off _; rfl
  | cons cd rest ih =>
      intro off hall
      cases cd with
      | mk c d =>
          have hc : c.archiveFileIndex ≤ numSplits := hall (c, d) (by simp)
          rw [assignChunks, if_pos hc]
          simp only []
          rw [ih _ (fun p hp => hall p (by simp [hp]))]
          rfl

theorem assignPure_get :
    ∀ (ps : List (PChunkDef × List Nat)) (off : Nat → Nat) (j : Nat)
      (c : PChunkDef) (d : List Nat),
      ps.get? j = some (c, d) →
      (assignPure ps off).get? j =
        some { c with
          offset := advOff off (ps.take j) c.archiveFileIndex,
          sizeCompressed := d.length % 4294967296 } := by
  intro ps
  induction ps with
  | nil => intro off j c d h; simp at h
  | cons cd rest ih =>
      intro off j c d h
      cases cd with
      | mk c0 d0 =>
          cases j with
          | zero =>
              rw [List.get?_cons_zero] at h
              injection h with h1
              cases h1
              rw [assignPure]
              simp [advOff]
          | succ j0 =>
              rw [List.get?_cons_succ] at h
              rw [assignPure]
              simp only [List.get?_cons_succ, List.take_succ_cons]
              rw [ih _ j0 c d h]
              rfl

theorem advOff_sum :
    ∀ (ps : List (PChunkDef × List Nat)) (off : Nat → Nat) (v : Nat),
      off v < 4294967296 →
      advOff off ps v =
        (off v +
          ((ps.filter (fun cd => cd.1.archiveFileIndex = v)).map
            (fun cd => cd.2.length % 4294967296)).sum) % 4294967296 := by
  intro ps
  induction ps with
  | nil =>
      intro off v hv
      simp [advOff, Nat.mod_eq_of_lt hv]
  | cons cd rest ih =>
      intro off v hv
      have hcons : advOff off (cd :: rest) = advOff
          (fun w => if w = cd.1.archiveFileIndex then
              (off w + cd.2.length % 4294967296) % 4294967296
            else off w) rest := rfl
      rw [hcons]
      by_cases hvol : v = cd.1.archiveFileIndex
      · rw [ih _ v (by
          rw [if_pos hvol]
          exact Nat.mod_lt _ (by omega))]
        rw [if_pos hvol, List.filter_cons, if_pos (by simp [hvol]),
          List.map_cons, List.sum_cons, Nat.mod_add_mod]
        omega
      · rw [ih _ v (by
          rw [if_neg hvol]
          exact hv)]
        rw [if_neg hvol, List.filter_cons,
          if_neg (by simp only [decide_eq_true_eq]; exact fun h => hvol (Eq.symm h))]

theorem sum_map_const {α : Type} (l : List α) (c : Nat) :
    (l.map (fun _ => c)).sum = c * l.length := by
  induction l with
  | nil => simp
  | cons x rest ih => simp [ih, Nat.mul_succ]; ring

/-! ### Reorder-buffer lemmas: the writer emits ascending positions -/

/-- The canonical tail of the write sequence: positions `next ≤ k < n`
paired with their buffers, ascending. -/
def pairsFrom (dAt : Nat → List Nat) (n next : Nat) : List (Nat × List Nat) :=
  (List.range' next (n - next)).map (fun k => (k, dAt k))

theorem takeEntry_none_not_mem {i : Nat} :
    ∀ {buf : List (Nat × List Nat)}, takeEntry i buf = none →
      ∀ d, (i, d) ∉ buf := by
  intro buf
  induction buf with
  | nil => intro _ d h; simp at h
  | cons hd tl ih =>
      intro h d hmem
      rw [takeEntry] at h
      by_cases hj : hd.1 = i
      · simp [hj] at h
      · rw [if_neg hj] at h
        rcases List.mem_cons.mp hmem with h1 | h1
        · exact hj (by rw [← h1])
        · cases htl : takeEntry i tl with
          | some pr => rw [htl] at h; simp at h
          | none => exact ih htl d h1

theorem takeEntry_some_perm {i : Nat} :
    ∀ {buf : List (Nat × List Nat)} {d rest},
      takeEntry i buf = some (d, rest) → buf.Perm ((i, d) :: rest) := by
  intro buf
  induction buf with
  | nil => intro d rest h; simp [takeEntry] at h
  | cons hd tl ih =>
      intro d rest h
      cases hd with
      | mk a b =>
          simp only [takeEntry] at h
          by_cases hj : a = i
          · rw [if_pos hj] at h
            injection h with h2
            injection h2 with e1 e2
            subst hj
            subst e1
            subst e2
            exact List.Perm.refl _
          · rw [if_neg hj] at h
            cases htl : takeEntry i tl with
            | none => rw [htl] at h; cases h
            | some pr =>
                cases pr with
                | mk d2 r2 =>
                    rw [htl] at h
                    injection h with h2
                    injection h2 with e1 e2
                    subst e1
                    subst e2
                    have hperm := ih htl
                    have h3 := hperm.cons (a, b)
                    exact h3.trans (List.Perm.swap _ _ _)

theorem flushReady_none (next : Nat) (buf : List (Nat × List Nat))
    (h : takeEntry next buf = none) : flushReady next buf = ([], next, buf) := by
  conv_lhs => rw [flushReady]
  split
  · rfl
  · rename_i d buf1 heq
    rw [h] at heq
    cases heq

theorem flushReady_some (next : Nat) (buf : List (Nat × List Nat))
    (d : List Nat) (buf1 : List (Nat × List Nat))
    (h : takeEntry next buf = some (d, buf1)) :
    flushReady next buf =
      ((next, d) :: (flushReady (next + 1) buf1).1,
        (flushReady (next + 1) buf1).2) := by
  conv_lhs => rw [flushReady]
  split
  · rename_i heq
    rw [h] at heq
    cases heq
  · rename_i d2 buf2 heq
    rw [h] at heq
    injection heq with heq2
    injection heq2 with e1 e2
    subst e1
    subst e2
    rfl

theorem flushReady_spec (dAt : Nat → List Nat) :
    ∀ (fuel : Nat) (buf : List (Nat × List Nat)) (next : Nat),
      buf.length ≤ fuel →
      (∀ p ∈ buf, p.2 = dAt p.1) →
      ∃ m buf2,
        flushReady next buf =
          ((List.range' next (m - next)).map (fun k => (k, dAt k)), m, buf2)
        ∧ next ≤ m
        ∧ buf.Perm
            (((List.range' next (m - next)).map (fun k => (k, dAt k))) ++ buf2)
        ∧ takeEntry m buf2 = none
        ∧ (∀ p ∈ buf2, p.2 = dAt p.1) := by
  intro fuel
  induction fuel with
  | zero =>
      intro buf next hlen hc
      have hbuf : buf = [] := List.length_eq_zero.mp (Nat.le_zero.mp hlen)
      subst hbuf
      refine ⟨next, [], ?_, Nat.le_refl _, ?_, rfl, ?_⟩
      · rw [flushReady_none next [] rfl, Nat.sub_self]
        rfl
      · simp [Nat.sub_self]
      · intro p hp; simp at hp
  | succ N ih =>
      intro buf next hlen hc
      cases htake : takeEntry next buf with
      | none =>
          refine ⟨next, buf, ?_, Nat.le_refl _, ?_, htake, hc⟩
          · rw [flushReady_none next buf htake, Nat.sub_self]
            rfl
          · simp [Nat.sub_self]
      | some pr =>
          cases pr with
          | mk d buf1 =>
              have hperm : buf.Perm ((next, d) :: buf1) :=
                takeEntry_some_perm htake
              have hlen1 : buf1.length ≤ N := by
                have := takeEntry_length htake
                have := hperm.length_eq
                omega
              have hmem : (next, d) ∈ buf := hperm.mem_iff.mpr (by simp)
              have hd : d = dAt next := hc (next, d) hmem
              have hc1 : ∀ p ∈ buf1, p.2 = dAt p.1 := by
                intro p hp
                exact hc p (hperm.mem_iff.mpr (by simp [hp]))
              obtain ⟨m, buf2, heq, hle, hp2, ht2, hc2⟩ :=
                ih buf1 (next + 1) hlen1 hc1
              refine ⟨m, buf2, ?_, by omega, ?_, ht2, hc2⟩
              · rw [flushReady_some next buf d buf1 htake, heq]
                have hrange : List.range' next (m - next)
                    = next :: List.range' (next + 1) (m - (next + 1)) := by
                  have h1 : m - next = (m - (next + 1)) + 1 := by omega
                  rw [h1, List.range'_succ]
                rw [hrange]
                simp [hd]
              · have hrange : List.range' next (m - next)
                    = next :: List.range' (next + 1) (m - (next + 1)) := by
                  have h1 : m - next = (m - (next + 1)) + 1 := by omega
                  rw [h1, List.range'_succ]
                rw [hrange]
                have h4 := hperm.trans (hp2.cons (next, d))
                simpa [hd] using h4

theorem pairsFrom_mem {dAt : Nat → List Nat} {n next : Nat}
    {p : Nat × List Nat} (h : p ∈ pairsFrom dAt n next) :
    next ≤ p.1 ∧ p.1 < n ∧ p.2 = dAt p.1 := by
  unfold pairsFrom at h
  rcases List.mem_map.mp h with ⟨k, hk, he⟩
  rw [List.mem_range'_1] at hk
  cases p with
  | mk a b =>
      injection he with e1 e2
      subst e1
      subst e2
      exact ⟨hk.1, by omega, rfl⟩

/-- The writer's receive loop emits exactly the ascending sequence of
pending positions, for every arrival order. -/
theorem runWriter_spec (dAt : Nat → List Nat) (n : Nat) :
    ∀ (arrivals : List (Nat × List Nat)) (next : Nat)
      (buf : List (Nat × List Nat)),
      (arrivals ++ buf).Perm (pairsFrom dAt n next) →
      takeEntry next buf = none →
      runWriter arrivals next buf = pairsFrom dAt n next := by
  intro arrivals
  induction arrivals with
  | nil =>
      intro next buf hperm htake
      by_cases hlt : next < n
      · exfalso
        have hmem : (next, dAt next) ∈ pairsFrom dAt n next := by
          unfold pairsFrom
          refine List.mem_map.mpr ⟨next, ?_, rfl⟩
          rw [List.mem_range'_1]
          omega
        have hin : (next, dAt next) ∈ buf := by
          have := hperm.mem_iff.mpr hmem
          simpa using this
        exact takeEntry_none_not_mem htake _ hin
      · rw [runWriter]
        unfold pairsFrom
        have h0 : n - next = 0 := by omega
        rw [h0]
        rfl
  | cons hd rest ih =>
      intro next buf hperm htake
      cases hd with
      | mk i d =>
          have hmem : (i, d) ∈ pairsFrom dAt n next :=
            hperm.mem_iff.mp (by simp)
          obtain ⟨hile, hiltn, hdat⟩ := pairsFrom_mem hmem
          have hdat2 : d = dAt i := hdat
          have hiltn2 : i < n := hiltn
          by_cases hi : i = next
          · subst hi
            rw [runWriter, if_pos rfl]
            have hcbuf : ∀ p ∈ buf, p.2 = dAt p.1 := by
              intro p hp
              exact (pairsFrom_mem (hperm.mem_iff.mp (by simp [hp]))).2.2
            obtain ⟨m, buf2, heq, hle, hp2, ht2, hc2⟩ :=
              flushReady_spec dAt buf.length buf (i + 1) (Nat.le_refl _) hcbuf
            have hbmem : ∀ p ∈ buf, p ∈ pairsFrom dAt n i := by
              intro p hp
              exact hperm.mem_iff.mp (by simp [hp])
            have hmn : m ≤ n := by
              by_contra hgt
              push_neg at hgt
              have hnm : (n, dAt n) ∈ (List.range' (i + 1) (m - (i + 1))).map
                  (fun k => (k, dAt k)) := by
                refine List.mem_map.mpr ⟨n, ?_, rfl⟩
                rw [List.mem_range'_1]
                omega
              have hnin : (n, dAt n) ∈ buf :=
                hp2.mem_iff.mpr (List.mem_append.mpr (Or.inl hnm))
              have := (pairsFrom_mem (hbmem _ hnin)).2.1
              omega
            have hsplit : pairsFrom dAt n i =
                (i, d) :: ((List.range' (i + 1) (m - (i + 1))).map
                  (fun k => (k, dAt k)) ++ pairsFrom dAt n m) := by
              unfold pairsFrom
              have h1 : n - i = (n - i - 1) + 1 := by omega
              rw [h1, List.range'_succ]
              have h2 : List.range' (i + 1) (n - i - 1) =
                  List.range' (i + 1) (m - (i + 1)) ++
                    List.range' (m) (n - m) := by
                have h4 := List.range'_append_1 (i + 1) (m - (i + 1)) (n - m)
                rw [show i + 1 + (m - (i + 1)) = m from by omega] at h4
                rw [show n - i - 1 = n - m + (m - (i + 1)) from by omega]
                exact h4.symm
              rw [h2]
              simp [hdat2]
            have hinv : (rest ++ buf2).Perm (pairsFrom dAt n m) := by
              have h1 : ((i, d) :: (rest ++ buf)).Perm
                  ((i, d) :: ((List.range' (i + 1) (m - (i + 1))).map
                    (fun k => (k, dAt k)) ++ pairsFrom dAt n m)) := by
                rw [← hsplit]
                exact hperm
              have h2 := h1.cons_inv
              have h3 : (rest ++ buf).Perm
                  (rest ++ ((List.range' (i + 1) (m - (i + 1))).map
                    (fun k => (k, dAt k)) ++ buf2)) :=
                List.Perm.append_left rest hp2
              have h4 := h3.symm.trans h2
              have hm1 : (↑rest + (↑((List.range' (i + 1) (m - (i + 1))).map
                    (fun k => (k, dAt k))) + ↑buf2) : Multiset (Nat × List Nat))
                  = ↑((List.range' (i + 1) (m - (i + 1))).map
                    (fun k => (k, dAt k))) + ↑(pairsFrom dAt n m) := by
                have := Multiset.coe_eq_coe.mpr h4
                simpa using this
              have hm2 : (↑rest + ↑buf2 : Multiset (Nat × List Nat))
                  = ↑(pairsFrom dAt n m) := by
                have h5 : (↑((List.range' (i + 1) (m - (i + 1))).map
                      (fun k => (k, dAt k))) + (↑rest + ↑buf2)
                    : Multiset (Nat × List Nat))
                    = ↑((List.range' (i + 1) (m - (i + 1))).map
                      (fun k => (k, dAt k))) + ↑(pairsFrom dAt n m) := by
                  rw [← hm1]
                  abel
                exact add_left_cancel h5
              have hco : (↑(rest ++ buf2) : Multiset (Nat × List Nat))
                  = ↑rest + ↑buf2 := by
                simp
              exact Multiset.coe_eq_coe.mp (hco.trans hm2)
            simp only [heq]
            rw [ih m buf2 hinv ht2, hsplit]
            exact List.cons_append _ _ _
          · rw [runWriter, if_neg hi]
            apply ih
            · refine List.Perm.trans ?_ hperm
              have h1 : (rest ++ ((i, d) :: buf)).Perm
                  (((i, d) :: rest) ++ buf) := by
                have := @List.perm_middle _ (i, d) rest buf
                simpa using this
              exact h1
            · rw [takeEntry]
              rw [if_neg hi, htake]

theorem filter_take_sum_le (ps : List (PChunkDef × List Nat)) (v : Nat)
    (k : Nat) :
    (((ps.take k).filter (fun cd => cd.1.archiveFileIndex = v)).map
      (fun cd => cd.2.length)).sum ≤
    ((ps.filter (fun cd => cd.1.archiveFileIndex = v)).map
      (fun cd => cd.2.length)).sum := by
  have h1 : ps.take k ++ ps.drop k = ps := List.take_append_drop k ps
  conv_rhs => rw [← h1]
  rw [List.filter_append, List.map_append, List.sum_append]
  omega

theorem mem_filter_take {ps : List (PChunkDef × List Nat)} {v k : Nat}
    {x : PChunkDef × List Nat}
    (hx : x ∈ (ps.take k).filter (fun cd => cd.1.archiveFileIndex = v)) :
    x ∈ ps.filter (fun cd => cd.1.archiveFileIndex = v) :=
  ((ps.take_sublist k).filter _).mem hx

theorem assignPure_offset_mono
    (ps : List (PChunkDef × List Nat)) (off0 : Nat → Nat)
    (i j : Nat) (ci cj : PChunkDef) (di dj : List Nat)
    (hi : ps.get? i = some (ci, di)) (hj : ps.get? j = some (cj, dj))
    (hij : i < j) (hv : cj.archiveFileIndex = ci.archiveFileIndex)
    (hoff : off0 ci.archiveFileIndex < 4294967296)
    (hno : off0 ci.archiveFileIndex +
      ((ps.filter (fun cd => cd.1.archiveFileIndex = ci.archiveFileIndex)).map
        (fun cd => cd.2.length)).sum < 4294967296) :
    advOff off0 (ps.take i) ci.archiveFileIndex + di.length % 4294967296
      ≤ advOff off0 (ps.take j) cj.archiveFileIndex := by
  rw [hv]
  have hlenM : ∀ k, (((ps.take k).filter
        (fun cd => cd.1.archiveFileIndex = ci.archiveFileIndex)).map
          (fun cd => cd.2.length % 4294967296)).sum =
      (((ps.take k).filter
        (fun cd => cd.1.archiveFileIndex = ci.archiveFileIndex)).map
          (fun cd => cd.2.length)).sum := by
    intro k
    congr 1
    apply List.map_congr_left
    intro x hx
    have hxmem := mem_filter_take hx
    have hle : x.2.length ≤
        ((ps.filter (fun cd => cd.1.archiveFileIndex =
          ci.archiveFileIndex)).map (fun cd => cd.2.length)).sum :=
      List.single_le_sum (fun y _ => Nat.zero_le y) _
        (List.mem_map.mpr ⟨x, hxmem, rfl⟩)
    exact Nat.mod_eq_of_lt (by omega)
  have hadv : ∀ k, advOff off0 (ps.take k) ci.archiveFileIndex =
      off0 ci.archiveFileIndex +
        (((ps.take k).filter
          (fun cd => cd.1.archiveFileIndex = ci.archiveFileIndex)).map
            (fun cd => cd.2.length)).sum := by
    intro k
    rw [advOff_sum (ps.take k) off0 ci.archiveFileIndex hoff, hlenM k]
    have := filter_take_sum_le ps ci.archiveFileIndex k
    exact Nat.mod_eq_of_lt (by omega)
  rw [hadv i, hadv j]
  have hdiM : di.length % 4294967296 = di.length := by
    have hmem : (ci, di) ∈ ps.filter
        (fun cd => cd.1.archiveFileIndex = ci.archiveFileIndex) := by
      refine List.mem_filter.mpr ⟨?_, by simp⟩
      exact List.get?_mem hi
    have hle : di.length ≤
        ((ps.filter (fun cd => cd.1.archiveFileIndex =
          ci.archiveFileIndex)).map (fun cd => cd.2.length)).sum :=
      List.single_le_sum (fun y _ => Nat.zero_le y) _
        (List.mem_map.mpr ⟨(ci, di), hmem, rfl⟩)
    exact Nat.mod_eq_of_lt (by omega)
  rw [hdiM]
  have hstep : (((ps.take (i + 1)).filter
        (fun cd => cd.1.archiveFileIndex = ci.archiveFileIndex)).map
          (fun cd => cd.2.length)).sum =
      (((ps.take i).filter
        (fun cd => cd.1.archiveFileIndex = ci.archiveFileIndex)).map
          (fun cd => cd.2.length)).sum + di.length := by
    have hi2 : ps[i]? = some (ci, di) := by
      rw [← List.get?_eq_getElem?]
      exact hi
    rw [List.take_succ, hi2]
    rw [List.filter_append, List.map_append, List.sum_append]
    simp
  have hmono : (((ps.take (i + 1)).filter
        (fun cd => cd.1.archiveFileIndex = ci.archiveFileIndex)).map
          (fun cd => cd.2.length)).sum ≤
      (((ps.take j).filter
        (fun cd => cd.1.archiveFileIndex = ci.archiveFileIndex)).map
          (fun cd => cd.2.length)).sum := by
    have h1 : ps.take j = ps.take (i + 1) ++ (ps.drop (i + 1)).take (j - (i + 1)) := by
      rw [← List.take_add]
      congr 1
      omega
    rw [h1, List.filter_append, List.map_append, List.sum_append]
    omega
  omega

/-- The header buffer's length satisfies the spec's formula. -/
theorem headerBuffer_length (cfg : PackConfig) :
    (headerBuffer cfg).length =
      9 + (cfg.files.map (fun f => f.filename.length + 1)).sum
        + (((sortedDirs cfg).drop 1).map (fun d => d.length + 1)).sum
        + (cfg.files.map (fun f => 2 + 2 * f.chunks.length + 2)).sum
        + 4 + 16 * cfg.chunks.length
        + (cfg.archiveFiles.map (fun n => n.length + 1)).sum
        + (if cfgHasDz cfg then 10 else 0) := by
  have hmap : (fileMapBytes cfg).length =
      (cfg.files.map (fun f => 2 + 2 * f.chunks.length + 2)).sum := by
    rw [fileMapBytes]
    rw [List.length_flatten, List.map_map]
    congr 1
    apply List.map_congr_left
    intro f _
    simp only [Function.comp]
    rw [List.length_append, List.length_append, List.length_flatten,
      List.map_map]
    have : (f.chunks.map (List.length ∘ writeU16le)).sum
        = (f.chunks.map (fun _ => 2)).sum := by
      congr 1
    rw [this, sum_map_const]
    simp [writeU16le]
  rw [headerBuffer]
  simp only [List.length_append, List.length_flatten, List.map_map]
  rw [hmap]
  have hfn : ((cfg.files.map (List.length ∘ fun f => f.filename ++ [0]))).sum
      = (cfg.files.map (fun f => f.filename.length + 1)).sum := by
    congr 1
    apply List.map_congr_left
    intro f _
    simp [Function.comp]
  have hdn : (((sortedDirs cfg).drop 1).map
        (List.length ∘ fun d => replByte 47 92 d ++ [0])).sum
      = (((sortedDirs cfg).drop 1).map (fun d => d.length + 1)).sum := by
    congr 1
    apply List.map_congr_left
    intro d _
    simp [Function.comp, replByte]
  have han : ((cfg.archiveFiles.map (List.length ∘ fun n => n ++ [0]))).sum
      = (cfg.archiveFiles.map (fun n => n.length + 1)).sum := by
    congr 1
    apply List.map_congr_left
    intro n _
    simp [Function.comp]
  rw [hfn, hdn, han]
  have hrange : (if cfgHasDz cfg then
        match cfg.rangeSettings with
        | some rs => rs.take 10 ++ List.replicate (10 - rs.length) 0
        | none => List.replicate 10 0
      else ([] : List Nat)).length = (if cfgHasDz cfg then 10 else 0) := by
    by_cases h : cfgHasDz cfg
    · rw [if_pos h, if_pos h]
      cases hrs : cfg.rangeSettings with
      | none => simp
      | some rs =>
          simp [List.length_take]
          omega
    · rw [if_neg h, if_neg h]
      rfl
  rw [hrange]
  simp [writeU16le, writeU32le]

/-- C6: the pre-computed header size — 9 header bytes, the
zero-terminated filenames and directory names, the file map
(2 + 2·|chunks| + 2 bytes per file), 4 chunk-table-header bytes,
16 bytes per chunk, the split list, and 10 range-settings bytes when
some chunk carries DZ_RANGE — equals the byte offset recorded for the
first chunk written on volume 0. -/
theorem header_size_predicts_first_chunk
    (cfg : PackConfig) (ds : List (List Nat)) (rs : List PChunkDef)
    (j : Nat) (c : PChunkDef) (d : List Nat)
    (hall : ∀ p ∈ (sortById cfg.chunks).zip ds,
      p.1.archiveFileIndex ≤ cfg.archiveFiles.length)
    (hassign : assignChunks cfg.archiveFiles.length
      ((sortById cfg.chunks).zip ds)
      (fun v => if v = 0 then (headerBuffer cfg).length % 4294967296 else 0)
      = .ok rs)
    (hj : ((sortById cfg.chunks).zip ds).get? j = some (c, d))
    (hvol : c.archiveFileIndex = 0)
    (hfirst : ∀ k p, k < j → ((sortById cfg.chunks).zip ds).get? k = some p →
      p.1.archiveFileIndex ≠ 0)
    (hfit : (headerBuffer cfg).length < 4294967296) :
    (rs.get? j).map (fun r => r.offset) = some ((headerBuffer cfg).length) ∧
    (headerBuffer cfg).length =
      9 + (cfg.files.map (fun f => f.filename.length + 1)).sum
        + (((sortedDirs cfg).drop 1).map (fun d => d.length + 1)).sum
        + (cfg.files.map (fun f => 2 + 2 * f.chunks.length + 2)).sum
        + 4 + 16 * cfg.chunks.length
        + (cfg.archiveFiles.map (fun n => n.length + 1)).sum
        + (if cfgHasDz cfg then 10 else 0) := by
  refine ⟨?_, headerBuffer_length cfg⟩
  rw [assignChunks_ok _ _ _ hall] at hassign
  injection hassign with hrs
  subst hrs
  rw [assignPure_get _ _ j c d hj]
  have hempty : (((sortById cfg.chunks).zip ds).take j).filter
      (fun cd => cd.1.archiveFileIndex = (0 : Nat)) = [] := by
    rw [List.filter_eq_nil]
    intro a ha
    rcases List.mem_iff_get?.mp ha with ⟨k, hk⟩
    have hklt : k < j := by
      by_contra hge
      push_neg at hge
      have hnone : (((sortById cfg.chunks).zip ds).take j).get? k = none := by
        apply List.get?_eq_none.mpr
        have := List.length_take_le j ((sortById cfg.chunks).zip ds)
        omega
      rw [hnone] at hk
      cases hk
    have hk2 : ((sortById cfg.chunks).zip ds).get? k = some a := by
      rw [← List.get?_take hklt]
      exact hk
    simpa using hfirst k a hklt hk2
  simp only [Option.map_some']
  rw [hvol]
  rw [advOff_sum _ _ 0 (by simp; omega), hempty]
  simp [Nat.mod_eq_of_lt hfit]

/-- Witness for C6: a one-file COPY archive with filename "a"; the
header is 37 bytes and the single chunk's recorded offset is 37. -/
theorem header_size_predicts_first_chunk_witness :
    ((([⟨0, ["COPY"], 37, 3, 5, 0⟩] : List PChunkDef).map
      (fun r => r.offset)).get? 0 = some 37) ∧
    (headerBuffer ⟨[⟨[97], [46], [0]⟩], [⟨0, ["COPY"], 0, 0, 5, 0⟩],
      [], none⟩).length = 37 := by
  have h := header_size_predicts_first_chunk
    ⟨[⟨[97], [46], [0]⟩], [⟨0, ["COPY"], 0, 0, 5, 0⟩], [], none⟩
    [[1, 2, 3]] [⟨0, ["COPY"], 37, 3, 5, 0⟩] 0
    ⟨0, ["COPY"], 0, 0, 5, 0⟩ [1, 2, 3]
    (by decide) (by rfl) (by rfl) (by rfl)
    (by intro k p hk hp; omega) (by decide)
  constructor
  · have h1 := h.1
    simp at h1
    simp [h1]
  · have h2 := h.2
    rw [h2]
    rfl

/-- C7: although compressed buffers arrive in arbitrary order, the
single writer emits them in strictly ascending position order
(`runWriter` returns the canonical ascending sequence for every
permutation of arrivals); each written chunk records the target
volume's running offset as its `offset` and the buffer's size as its
`compressed_length`; and two chunks on the same volume never overlap:
the later chunk's offset is at least the earlier's offset plus its
recorded length (absent u32 overflow). -/
theorem writer_order_and_offsets
    (ds : List (List Nat)) (arrivals : List (Nat × List Nat))
    (ps : List (PChunkDef × List Nat)) (off0 : Nat → Nat)
    (numSplits : Nat) (rs : List PChunkDef)
    (hperm : arrivals.Perm
      ((List.range ds.length).map (fun k => (k, ds.getD k []))))
    (hall : ∀ p ∈ ps, p.1.archiveFileIndex ≤ numSplits)
    (hassign : assignChunks numSplits ps off0 = .ok rs) :
    runWriter arrivals 0 [] =
      (List.range ds.length).map (fun k => (k, ds.getD k []))
    ∧ (∀ j c d, ps.get? j = some (c, d) →
        rs.get? j = some { c with
          offset := advOff off0 (ps.take j) c.archiveFileIndex,
          sizeCompressed := d.length % 4294967296 })
    ∧ (∀ i j ci di cj dj ri rj, ps.get? i = some (ci, di) →
        ps.get? j = some (cj, dj) → i < j →
        cj.archiveFileIndex = ci.archiveFileIndex →
        off0 ci.archiveFileIndex < 4294967296 →
        off0 ci.archiveFileIndex +
          ((ps.filter (fun cd =>
            cd.1.archiveFileIndex = ci.archiveFileIndex)).map
              (fun cd => cd.2.length)).sum < 4294967296 →
        rs.get? i = some ri → rs.get? j = some rj →
        ri.offset + ri.sizeCompressed ≤ rj.offset) := by
  rw [assignChunks_ok _ _ _ hall] at hassign
  injection hassign with hrs
  subst hrs
  refine ⟨?_, ?_, ?_⟩
  · have h := runWriter_spec (fun k => ds.getD k []) ds.length arrivals 0 []
      (by
        rw [List.append_nil]
        unfold pairsFrom
        rw [Nat.sub_zero, ← List.range_eq_range']
        exact hperm)
      rfl
    rw [h]
    unfold pairsFrom
    rw [Nat.sub_zero, ← List.range_eq_range']
  · intro j c d hj
    exact assignPure_get _ _ j c d hj
  · intro i j ci di cj dj ri rj hi hj hij hv hoff hno hri hrj
    rw [assignPure_get _ _ i ci di hi] at hri
    rw [assignPure_get _ _ j cj dj hj] at hrj
    injection hri with e1
    injection hrj with e2
    subst e1
    subst e2
    exact assignPure_offset_mono ps off0 i j ci cj di dj hi hj hij hv hoff hno

/-- Witness for C7: three chunks, two on volume 0 and one on volume 1,
arriving out of order as 2, 0, 1; the writes happen as 0, 1, 2, and
volume 0's offsets advance 100 → 101 past chunk 0's one-byte buffer. -/
theorem writer_order_and_offsets_witness :
    runWriter [(2, [7]), (0, [5]), (1, [6, 6])] 0 []
      = [(0, [5]), (1, [6, 6]), (2, [7])] ∧
    (100 : Nat) + 1 ≤ 101 := by
  have h := writer_order_and_offsets [[5], [6, 6], [7]]
    [(2, [7]), (0, [5]), (1, [6, 6])]
    [(⟨0, ["COPY"], 0, 0, 1, 0⟩, [5]), (⟨1, ["COPY"], 0, 0, 2, 1⟩, [6, 6]),
      (⟨2, ["COPY"], 0, 0, 1, 0⟩, [7])]
    (fun v => if v = 0 then 100 else 0) 1
    [⟨0, ["COPY"], 100, 1, 1, 0⟩, ⟨1, ["COPY"], 0, 2, 2, 1⟩,
      ⟨2, ["COPY"], 101, 1, 1, 0⟩]
    (by decide) (by decide) (by rfl)
  constructor
  · have h1 := h.1
    rw [h1]
    rfl
  · have h3 := h.2.2 0 2 ⟨0, ["COPY"], 0, 0, 1, 0⟩ [5]
      ⟨2, ["COPY"], 0, 0, 1, 0⟩ [7]
      ⟨0, ["COPY"], 100, 1, 1, 0⟩ ⟨2, ["COPY"], 101, 1, 1, 0⟩
      (by rfl) (by rfl) (by omega) (by rfl) (by decide) (by decide)
      (by rfl) (by rfl)
    simpa using h3

/-- C2: when the codec dispatcher fails on a chunk during extraction,
`keep_raw = true` copies the chunk's `real_compressed_length` raw bytes
(re-read from the chunk's offset) to the output and continues, so the
extraction succeeds; `keep_raw = false` aborts the file's extraction
with the codec's error (the first failing chunk's error).  Codec
failures are therefore recoverable exactly when `keep_raw` is set. -/
theorem codec_failure_recoverable_iff_keep_raw
    {ε : Type} (chunks : List RawChunk) (vol : Nat → Option (List Nat))
    (decomp : Nat → Nat → List Nat → Except ε (List Nat)) (ids : List Nat)
    (hopen : ∀ c ∈ ids.filterMap (lookupChunk chunks), (vol c.fileIdx).isSome) :
    extractFile chunks vol decomp true ids [] =
      .ok (((ids.filterMap (lookupChunk chunks)).map
        (fallbackOut decomp vol)).flatten)
    ∧ ((∀ c ∈ ids.filterMap (lookupChunk chunks),
          (decomp c.flags c.dLen (rawBytesOf vol c)).isOk) →
        extractFile chunks vol decomp false ids [] =
          .ok (((ids.filterMap (lookupChunk chunks)).map
            (okOut decomp vol)).flatten))
    ∧ (∀ k cbad e, (ids.filterMap (lookupChunk chunks)).get? k = some cbad →
        (∀ j c2, j < k → (ids.filterMap (lookupChunk chunks)).get? j = some c2 →
          (decomp c2.flags c2.dLen (rawBytesOf vol c2)).isOk) →
        decomp cbad.flags cbad.dLen (rawBytesOf vol cbad) = .error e →
        extractFile chunks vol decomp false ids [] = .error (.codec e)) := by
  refine ⟨?_, ?_, ?_⟩
  · simpa using extractFile_keepRaw chunks vol decomp ids [] hopen
  · intro hok
    simpa using extractFile_allOk chunks vol decomp false ids [] hopen hok
  · intro k cbad e hk hprev hbad
    exact extractFile_failsAt chunks vol decomp ids [] k cbad e hopen hk hprev hbad

/-- Witness for C2: one DZ_RANGE chunk whose codec always fails; with
`keep_raw` the output is the three raw bytes at offset 2, without it
the extraction fails with the codec's error 77. -/
theorem codec_failure_keep_raw_witness :
    extractFile [⟨0, 2, 0, 9, 4, 0, 3⟩]
      (fun v => if v = 0 then some [9, 9, 5, 6, 7, 8] else none)
      (fun fl _ data => if fl = 4 then Except.error 77 else Except.ok data)
      true [0] [] = .ok [5, 6, 7] ∧
    extractFile [⟨0, 2, 0, 9, 4, 0, 3⟩]
      (fun v => if v = 0 then some [9, 9, 5, 6, 7, 8] else none)
      (fun fl _ data => if fl = 4 then Except.error 77 else Except.ok data)
      false [0] [] = .error (.codec 77) := by
  have h := codec_failure_recoverable_iff_keep_raw
    [⟨0, 2, 0, 9, 4, 0, 3⟩]
    (fun v => if v = 0 then some [9, 9, 5, 6, 7, 8] else none)
    (fun fl _ data => if fl = 4 then Except.error 77 else Except.ok data)
    [0] (by decide)
  constructor
  · rw [h.1]; rfl
  · exact h.2.2 0 ⟨0, 2, 0, 9, 4, 0, 3⟩ 77 (by rfl)
      (by intro j c2 hj hj2; omega) (by rfl)

/-- C10: a chunk id in a file's list with no matching chunk-table entry
is silently skipped; when every chunk that does exist decodes, the
extraction succeeds and the output is the concatenation of the decoded
payloads of exactly the listed chunks that exist, in map order. -/
theorem unknown_chunk_id_skipped
    {ε : Type} (chunks : List RawChunk) (vol : Nat → Option (List Nat))
    (decomp : Nat → Nat → List Nat → Except ε (List Nat))
    (keepRaw : Bool) (ids : List Nat)
    (hopen : ∀ c ∈ ids.filterMap (lookupChunk chunks), (vol c.fileIdx).isSome)
    (hok : ∀ c ∈ ids.filterMap (lookupChunk chunks),
      (decomp c.flags c.dLen (rawBytesOf vol c)).isOk) :
    extractFile chunks vol decomp keepRaw ids [] =
      .ok (((ids.filterMap (lookupChunk chunks)).map
        (okOut decomp vol)).flatten) := by
  simpa using extractFile_allOk chunks vol decomp keepRaw ids [] hopen hok

/-- Witness for C10: the id 99 has no chunk-table entry; extraction of
the list `[99, 0]` does not fail and yields exactly chunk 0's
payload. -/
theorem unknown_chunk_id_skipped_witness :
    extractFile [⟨0, 1, 0, 2, 256, 0, 2⟩]
      (fun v => if v = 0 then some [4, 10, 11] else none)
      (fun _ _ data => (Except.ok data : Except Nat (List Nat)))
      true [99, 0] [] = .ok [10, 11] := by
  have h := unknown_chunk_id_skipped
    [⟨0, 1, 0, 2, 256, 0, 2⟩]
    (fun v => if v = 0 then some [4, 10, 11] else none)
    (fun _ _ data => (Except.ok data : Except Nat (List Nat)))
    true [99, 0] (by decide) (by decide)
  rw [h]; rfl

/-! ## Path sanitization theorems (C3) -/

theorem sanitizeComponents_no_dotdot :
    ∀ ps : List (List Char),
      (∀ p ∈ ps, p ≠ ['.', '.']) →
      sanitizeComponents ps =
        .ok (ps.filter (fun p => ¬(p = [] ∨ p = ['.']))) := by
  intro ps
  induction ps with
  | nil => intro _; rfl
  | cons p rest ih =>
      intro hno
      have hp : p ≠ ['.', '.'] := hno p (by simp)
      rw [sanitizeComponents]
      rw [if_neg hp]
      rw [ih (fun q hq => hno q (by simp [hq]))]
      by_cases hpe : p = [] ∨ p = ['.']
      · simp only [List.filter_cons]
        simp [hpe]
      · simp only [List.filter_cons]
        simp [hpe]

theorem sanitizeComponents_dotdot :
    ∀ ps : List (List Char),
      (∃ p ∈ ps, p = ['.', '.']) →
      sanitizeComponents ps = .error .traversal := by
  intro ps
  induction ps with
  | nil => intro h; simp at h
  | cons p rest ih =>
      intro h
      rw [sanitizeComponents]
      by_cases hp : p = ['.', '.']
      · rw [if_pos hp]
      · rw [if_neg hp]
        have : ∃ q ∈ rest, q = ['.', '.'] := by
          rcases h with ⟨q, hq, hq2⟩
          rcases List.mem_cons.mp hq with h1 | h1
          · exact absurd (h1 ▸ hq2) hp
          · exact ⟨q, h1, hq2⟩
        rw [ih this]

/-- C3 counterexample: the absolute path `/etc/passwd` is *not*
rejected by `sanitize_path` — the leading root is dropped and the
sanitized relative path `etc/passwd` is returned, contradicting the
claim that an absolute path aborts with the Security (absolute path)
error. -/
theorem absolute_path_not_rejected :
    sanitizePath ("/etc/passwd").toList
      = .ok [("etc").toList, ("passwd").toList] ∧
    ∀ e, sanitizePath ("/etc/passwd").toList ≠ .error e := by
  have h1 : sanitizePath ("/etc/passwd").toList
      = .ok [("etc").toList, ("passwd").toList] := by rfl
  refine ⟨h1, ?_⟩
  intro e he
  rw [h1] at he
  cases he

/-- C3 amended: `sanitize_path` aborts with the Security
directory-traversal error exactly when some component is `..`;
otherwise it drops the `.`, empty and leading-root pieces, refuses an
empty resolution, and returns the remaining components as the
sanitized relative path.  An absolute path is not rejected — its root
is stripped — and the Security (absolute path) error is unreachable
(it corresponds to Windows drive prefixes only). -/
theorem sanitize_path_behaviour (s : List Char) :
    ((∃ p ∈ splitSlash (normalizeSep s), p = ['.', '.']) →
      sanitizePath s = .error .traversal)
    ∧ ((∀ p ∈ splitSlash (normalizeSep s), p ≠ ['.', '.']) →
        sanitizePath s =
          (if (splitSlash (normalizeSep s)).filter
                (fun p => ¬(p = [] ∨ p = ['.'])) = [] then
            .error .emptyResolution
          else
            .ok ((splitSlash (normalizeSep s)).filter
              (fun p => ¬(p = [] ∨ p = ['.'])))))
    ∧ (∀ e, sanitizePath s = .error e → e ≠ .absolutePath) := by
  refine ⟨?_, ?_, ?_⟩
  · intro h
    rw [sanitizePath, sanitizeComponents_dotdot _ h]
  · intro h
    rw [sanitizePath, sanitizeComponents_no_dotdot _ h]
  · intro e he habs
    subst habs
    rw [sanitizePath] at he
    by_cases h : ∃ p ∈ splitSlash (normalizeSep s), p = ['.', '.']
    · rw [sanitizeComponents_dotdot _ h] at he
      cases he
    · push_neg at h
      rw [sanitizeComponents_no_dotdot _ h] at he
      simp only [] at he
      split at he
      · simp at he
      · simp at he

/-- Witness for C3 amended: `a/../b` aborts with the traversal error
and `.\x` (a backslash path with a leading `.`) sanitizes to `[x]`. -/
theorem sanitize_path_behaviour_witness :
    sanitizePath ("a/../b").toList = .error .traversal ∧
    sanitizePath (['.', '\\', 'x']) = .ok [['x']] := by
  constructor
  · exact (sanitize_path_behaviour ("a/../b").toList).1 (by decide)
  · have h := (sanitize_path_behaviour ['.', '\\', 'x']).2.1 (by decide)
    rw [h]
    rfl

end Dzip
